import Mathlib

/-!
Verification of the DataForge dataset-preparation pipeline.

The TypeScript sources are embedded shallowly:
* a JS scalar cell value (`string | number | boolean | null`) becomes the
  inductive `Value`; JS numbers are modelled as exact rationals (`ℚ`), so
  floating-point rounding and `NaN` are outside the model;
* a JS row object becomes an insertion-ordered association list `Row`;
  an absent key models JS `undefined`;
* `Math.sqrt` is modelled by `Rat.sqrt` (exact on perfect squares); the
  claims proved here depend only on `sqrt v = 0 ↔ v = 0`-style facts,
  never on the numeric value of an inexact square root;
* each exported function of `dataCleaner.ts`, `encoders.ts`,
  `featureEngineering.ts`, the scalers and the analyzer is translated to a
  Lean function of the same name.
-/

namespace DataForge

/-- A scalar cell value of a table, mirroring the TS union
`string | number | boolean | Date | null` (the `Date` case never reaches the
operations verified here and is omitted). JS numbers are modelled as `ℚ`. -/
inductive Value where
  | str (s : String)
  | num (q : ℚ)
  | boolean (b : Bool)
  | null
deriving DecidableEq, Repr

/-- A row: a JS object, modelled as an insertion-ordered association list.
A key that is absent from the list models a JS `undefined` lookup. -/
abbrev Row := List (String × Value)

/-- JS `row[k]`: `none` models `undefined`. -/
def lookupVal (r : Row) (k : String) : Option Value :=
  List.lookup k r

/-- JS `row[k] = v` (object key assignment): replaces the value of an
existing key in place, otherwise appends the key at the end — exactly the
key-ordering behaviour of JS objects. -/
def setVal : Row → String → Value → Row
  | [], k, v => [(k, v)]
  | (k', v') :: tl, k, v =>
      if k' = k then (k, v) :: tl else (k', v') :: setVal tl k v

/-- JS `delete row[k]`. -/
def removeKey : Row → String → Row
  | [], _ => []
  | (k', v') :: tl, k =>
      if k' = k then tl else (k', v') :: removeKey tl k

/-- The missing-cell predicate used throughout the sources:
`value === null || value === undefined || value === ''`. -/
def isMissingCell : Option Value → Bool
  | none => true
  | some .null => true
  | some (.str s) => s == ""
  | some _ => false

/-- JS `String(v)` for a cell value. Strings, booleans and `null` render as
in JS; number rendering is modelled by `ℚ`'s textual form (like JS's, it is
injective on distinct numbers and never empty — the claims below only use
those two facts, never the exact digits). -/
def jsString : Value → String
  | .str s => s
  | .num q => toString q
  | .boolean true => "true"
  | .boolean false => "false"
  | .null => "null"

@[simp] theorem lookupVal_nil (k : String) : lookupVal [] k = none := rfl

@[simp] theorem lookupVal_cons (k' : String) (v' : Value) (tl : Row) (k : String) :
    lookupVal ((k', v') :: tl) k =
      if k' = k then some v' else lookupVal tl k := by
  simp only [lookupVal, List.lookup]
  by_cases h : k' = k
  · simp [h, BEq.beq]
  · have h2 : (k == k') = false := by
      simp [BEq.beq]
      exact fun hk => h hk.symm
    simp [h, h2]

theorem lookupVal_setVal_self (r : Row) (k : String) (v : Value) :
    lookupVal (setVal r k v) k = some v := by
  induction r with
  | nil => simp [setVal]
  | cons hd tl ih =>
      obtain ⟨k', v'⟩ := hd
      simp only [setVal]
      by_cases h : k' = k
      · simp [h]
      · simp [h, ih]

theorem lookupVal_setVal_ne (r : Row) (k k' : String) (v : Value) (h : k' ≠ k) :
    lookupVal (setVal r k v) k' = lookupVal r k' := by
  induction r with
  | nil => simp [setVal, h.symm, Ne.symm h]
  | cons hd tl ih =>
      obtain ⟨k₀, v₀⟩ := hd
      simp only [setVal]
      by_cases h0 : k₀ = k
      · subst h0
        simp [Ne.symm h, h.symm]
      · simp only [h0, if_false, lookupVal_cons]
        by_cases h1 : k₀ = k'
        · simp [h1]
        · simp [h1, ih]

theorem lookupVal_removeKey_ne (r : Row) (k k' : String) (h : k' ≠ k) :
    lookupVal (removeKey r k) k' = lookupVal r k' := by
  induction r with
  | nil => simp [removeKey]
  | cons hd tl ih =>
      obtain ⟨k₀, v₀⟩ := hd
      simp only [removeKey]
      by_cases h0 : k₀ = k
      · subst h0
        simp [Ne.symm h]
      · simp only [h0, if_false, lookupVal_cons]
        by_cases h1 : k₀ = k'
        · simp [h1]
        · simp [h1, ih]

theorem lookup_mem {α : Type _} [DecidableEq α] {β : Type _} {k : α} {v : β}
    {l : List (α × β)} (h : List.lookup k l = some v) : (k, v) ∈ l := by
  induction l with
  | nil => simp [List.lookup] at h
  | cons hd tl ih =>
      obtain ⟨k₀, v₀⟩ := hd
      by_cases h0 : k = k₀
      · subst h0
        have hb : (k == k) = true := by simp
        simp only [List.lookup, hb, Option.some.injEq] at h
        subst h
        exact List.mem_cons_self _ _
      · have hb : (k == k₀) = false := by simp [h0]
        simp only [List.lookup, hb] at h
        exact List.mem_cons_of_mem _ (ih h)

theorem lookup_eq_none_of_not_mem_keys {β : Type _} {k : String}
    {l : List (String × β)} (h : k ∉ l.map Prod.fst) : List.lookup k l = none := by
  induction l with
  | nil => rfl
  | cons hd tl ih =>
      obtain ⟨k₀, v₀⟩ := hd
      simp only [List.map_cons, List.mem_cons] at h
      push_neg at h
      have hb : (k == k₀) = false := by simp [BEq.beq, h.1]
      simp only [List.lookup, hb]
      exact ih h.2

/-- Writing a batch of cells into a (copied) row: `ws` lists, per target key,
either `some v` (the JS code assigns `v`) or `none` (the JS code leaves the
key untouched).  This captures the common source pattern
`const newRow = {...row}; entries.forEach(([k, v]) => { newRow[k] = v })`
where every written value is computed from the *original* row. -/
def writeCells (r : Row) (ws : List (String × Option Value)) : Row :=
  ws.foldl (fun nr cw => match cw.2 with | some v => setVal nr cw.1 v | none => nr) r

@[simp] theorem writeCells_nil (r : Row) : writeCells r [] = r := rfl

theorem writeCells_cons (r : Row) (k : String) (w : Option Value)
    (tl : List (String × Option Value)) :
    writeCells r ((k, w) :: tl) =
      writeCells (match w with | some v => setVal r k v | none => r) tl := rfl

theorem lookupVal_writeCells_not_mem (r : Row) (ws : List (String × Option Value))
    (k : String) (hk : k ∉ ws.map Prod.fst) :
    lookupVal (writeCells r ws) k = lookupVal r k := by
  induction ws generalizing r with
  | nil => rfl
  | cons hd tl ih =>
      obtain ⟨k₀, w₀⟩ := hd
      simp only [List.map_cons, List.mem_cons] at hk
      push_neg at hk
      rw [writeCells_cons]
      cases w₀ with
      | none => exact ih r hk.2
      | some v => rw [ih _ hk.2, lookupVal_setVal_ne _ _ _ _ hk.1]

theorem lookupVal_writeCells_mem_some (r : Row) (ws : List (String × Option Value))
    (k : String) (v : Value)
    (hnd : (ws.map Prod.fst).Nodup) (hmem : (k, some v) ∈ ws) :
    lookupVal (writeCells r ws) k = some v := by
  induction ws generalizing r with
  | nil => simp at hmem
  | cons hd tl ih =>
      obtain ⟨k₀, w₀⟩ := hd
      simp only [List.map_cons, List.nodup_cons] at hnd
      rcases List.mem_cons.mp hmem with heq | htl
      · have h1 : k₀ = k := congrArg Prod.fst heq.symm
        have h2 : w₀ = some v := congrArg Prod.snd heq.symm
        subst h1; subst h2
        have hk : k₀ ∉ tl.map Prod.fst := hnd.1
        rw [writeCells_cons]
        rw [lookupVal_writeCells_not_mem _ _ _ hk, lookupVal_setVal_self]
      · have hk0 : k₀ ≠ k := by
          intro hk
          subst hk
          exact hnd.1 (List.mem_map_of_mem Prod.fst htl)
        rw [writeCells_cons]
        cases w₀ with
        | none => exact ih _ hnd.2 htl
        | some v' => exact ih _ hnd.2 htl

theorem lookupVal_writeCells_mem_none (r : Row) (ws : List (String × Option Value))
    (k : String)
    (hnd : (ws.map Prod.fst).Nodup) (hmem : (k, (none : Option Value)) ∈ ws) :
    lookupVal (writeCells r ws) k = lookupVal r k := by
  induction ws generalizing r with
  | nil => simp at hmem
  | cons hd tl ih =>
      obtain ⟨k₀, w₀⟩ := hd
      simp only [List.map_cons, List.nodup_cons] at hnd
      rcases List.mem_cons.mp hmem with heq | htl
      · have h1 : k₀ = k := congrArg Prod.fst heq.symm
        have h2 : w₀ = none := congrArg Prod.snd heq.symm
        subst h1; subst h2
        have hk : k₀ ∉ tl.map Prod.fst := hnd.1
        rw [writeCells_cons]
        exact lookupVal_writeCells_not_mem _ _ _ hk
      · have hk0 : k₀ ≠ k := by
          intro hk
          subst hk
          exact hnd.1 (List.mem_map_of_mem Prod.fst htl)
        rw [writeCells_cons]
        cases w₀ with
        | none => exact ih _ hnd.2 htl
        | some v' =>
            rw [ih _ hnd.2 htl]
            exact lookupVal_setVal_ne _ _ _ _ hk0.symm

/-- Cell at row index `i`, column `c` of a table (`none` when the row index
is out of range or the key is absent). -/
def cellAt (d : List Row) (i : ℕ) (c : String) : Option Value :=
  match d.get? i with
  | some r => lookupVal r c
  | none => none

theorem cellAt_map (f : Row → Row) (d : List Row) (i : ℕ) (c : String) :
    cellAt (d.map f) i c =
      (match d.get? i with | some r => lookupVal (f r) c | none => none) := by
  unfold cellAt
  rw [List.get?_eq_getElem?, List.get?_eq_getElem?, List.getElem?_map]
  cases d[i]? <;> rfl

/-- Ascending numeric sort, JS `values.sort((a, b) => a - b)`. -/
def sortQ (l : List ℚ) : List ℚ :=
  l.mergeSort (fun a b => decide (a ≤ b))

/-- Lexicographic string sort, JS `strings.sort()` (code-unit order). -/
def sortStr (l : List String) : List String :=
  l.mergeSort (fun a b => decide (a ≤ b))

theorem sortQ_perm (l : List ℚ) : (sortQ l).Perm l :=
  List.mergeSort_perm l _

theorem sortStr_perm (l : List String) : (sortStr l).Perm l :=
  List.mergeSort_perm l _

theorem sortQ_pairwise (l : List ℚ) : (sortQ l).Pairwise (· ≤ ·) := by
  have h := @List.sorted_mergeSort ℚ (fun a b : ℚ => decide (a ≤ b))
    (fun a b c hab hbc => by
      simp only [decide_eq_true_eq] at *
      exact le_trans hab hbc)
    (fun a b => by
      simp only [Bool.or_eq_true, decide_eq_true_eq]
      exact le_total a b) l
  exact h.imp (fun hab => by simpa using hab)

/-- JS `[...new Set(l)]`: first-occurrence deduplication in insertion
order (also the iteration order of a JS `Map`'s keys). -/
def jsSetAux {α : Type _} [DecidableEq α] (seen : List α) : List α → List α
  | [] => []
  | v :: tl => if v ∈ seen then jsSetAux seen tl else v :: jsSetAux (v :: seen) tl

def jsSet {α : Type _} [DecidableEq α] (l : List α) : List α :=
  jsSetAux [] l

theorem mem_jsSetAux {α : Type _} [DecidableEq α] (seen l : List α) (x : α) :
    x ∈ jsSetAux seen l ↔ x ∈ l ∧ x ∉ seen := by
  induction l generalizing seen with
  | nil => simp [jsSetAux]
  | cons v tl ih =>
      simp only [jsSetAux]
      by_cases hv : v ∈ seen
      · rw [if_pos hv, ih]
        constructor
        · rintro ⟨h1, h2⟩
          exact ⟨List.mem_cons_of_mem _ h1, h2⟩
        · rintro ⟨h1, h2⟩
          rcases List.mem_cons.mp h1 with rfl | h1
          · exact absurd hv h2
          · exact ⟨h1, h2⟩
      · rw [if_neg hv]
        simp only [List.mem_cons, ih]
        constructor
        · rintro (rfl | ⟨h1, h2⟩)
          · exact ⟨Or.inl rfl, hv⟩
          · exact ⟨Or.inr h1, fun hx => h2 (Or.inr hx)⟩
        · rintro ⟨rfl | h1, h2⟩
          · exact Or.inl rfl
          · by_cases hxv : x = v
            · exact Or.inl hxv
            · exact Or.inr ⟨h1, fun hx => hx.elim hxv h2⟩

theorem mem_jsSet {α : Type _} [DecidableEq α] (l : List α) (x : α) :
    x ∈ jsSet l ↔ x ∈ l := by
  rw [jsSet, mem_jsSetAux]
  simp

/-- One audit-log record.  The human-readable `details` text and the
`timestamp` of the source's `CleaningLog` are threaded as data the claims
never inspect; `details` keeps the message skeleton where a claim mentions
it (the pipeline error entry). -/
structure LogEntry where
  operation : String
  column : Option String := none
  details : String := ""
  rowsAffected : ℕ := 0
  category : String := "cleaning"
deriving DecidableEq, Repr

/-- The per-row deduplication key of `removeDuplicates`:
`columns.map(col => JSON.stringify(row[col])).join('|')`.  On the value
types of this model the stringify-and-join key is injective in the listed
cell values, so the key is modelled as that list itself. -/
def rowKey (cols : List String) (r : Row) : List (Option Value) :=
  cols.map (fun c => lookupVal r c)

def removeDupsGo (cols : List String) :
    List Row → List (List (Option Value)) → List Row × ℕ
  | [], _ => ([], 0)
  | r :: tl, seen =>
      let k := rowKey cols r
      if k ∈ seen then
        let rest := removeDupsGo cols tl seen
        (rest.1, rest.2 + 1)
      else
        let rest := removeDupsGo cols tl (k :: seen)
        (r :: rest.1, rest.2)

/-- Exact duplicate removal, from `dataCleaner.ts` (`removeDuplicates`):
first occurrence of each key survives, later ones are dropped, and a single
log entry is emitted iff at least one duplicate was removed. -/
def removeDuplicates (data : List Row) (cols : List String) :
    List Row × List LogEntry :=
  let res := removeDupsGo cols data []
  (res.1,
    if res.2 > 0 then
      [{ operation := "Remove Duplicates",
         details := "Removed " ++ toString res.2 ++ " exact duplicate row" ++
           (if res.2 > 1 then "s" else ""),
         rowsAffected := res.2,
         category := "cleaning" }]
    else [])

theorem removeDupsGo_keys (cols : List String) (l : List Row)
    (seen : List (List (Option Value))) :
    ((removeDupsGo cols l seen).1.map (rowKey cols)).Nodup ∧
      ∀ k ∈ (removeDupsGo cols l seen).1.map (rowKey cols), k ∉ seen := by
  induction l generalizing seen with
  | nil => simp [removeDupsGo]
  | cons r tl ih =>
      simp only [removeDupsGo]
      by_cases hk : rowKey cols r ∈ seen
      · simp only [hk, if_true]
        exact ih seen
      · simp only [hk, if_false, List.map_cons, List.nodup_cons, List.mem_cons]
        obtain ⟨ihnd, ihseen⟩ := ih (rowKey cols r :: seen)
        refine ⟨⟨fun hmem => ?_, ihnd⟩, ?_⟩
        · exact (ihseen _ hmem) (List.mem_cons_self _ _)
        · rintro k (rfl | hmem)
          · exact hk
          · intro hs
            exact (ihseen _ hmem) (List.mem_cons_of_mem _ hs)

theorem removeDupsGo_clean (cols : List String) (l : List Row)
    (seen : List (List (Option Value)))
    (hnd : (l.map (rowKey cols)).Nodup)
    (hdisj : ∀ k ∈ l.map (rowKey cols), k ∉ seen) :
    removeDupsGo cols l seen = (l, 0) := by
  induction l generalizing seen with
  | nil => rfl
  | cons r tl ih =>
      simp only [List.map_cons, List.nodup_cons] at hnd
      have hk : rowKey cols r ∉ seen :=
        hdisj _ (by simp)
      simp only [removeDupsGo, hk, if_false]
      rw [ih (rowKey cols r :: seen) hnd.2]
      rintro k hkmem
      simp only [List.mem_cons]
      push_neg
      refine ⟨fun hkr => hnd.1 (hkr ▸ hkmem), hdisj _ (List.mem_cons_of_mem _ hkmem)⟩

/-- C9. Exact duplicate removal is idempotent: re-running `removeDuplicates`
on its own output returns the very same row sequence, removes nothing, and
emits no log entry. -/
theorem removeDuplicates_idempotent (data : List Row) (cols : List String) :
    removeDuplicates (removeDuplicates data cols).1 cols =
      ((removeDuplicates data cols).1, []) := by
  unfold removeDuplicates
  obtain ⟨hnd, -⟩ := removeDupsGo_keys cols data []
  rw [removeDupsGo_clean cols _ [] hnd (by simp)]
  simp

/-- Containment-based string similarity from `dataCleaner.ts`
(`stringSimilarity`): 1 for equal strings, 0 when either is empty, else the
number of the shorter string's characters contained in the longer string,
divided by the longer string's length (ties treat `s1` as the shorter). -/
def stringSimilarity (s1 s2 : String) : ℚ :=
  if s1 = s2 then 1
  else if s1.length = 0 ∨ s2.length = 0 then 0
  else
    let longer := if s1.length > s2.length then s1 else s2
    let shorter := if s1.length > s2.length then s2 else s1
    ((shorter.data.filter (fun c => longer.contains c)).length : ℚ) /
      (longer.length : ℚ)

/-- Per-field match score of `calculateRowSimilarity`: 1 for `===`-equal
cells, 0.9 for two numbers whose difference over `max(|v1|, |v2|, 1)` is
below 1%, containment similarity of the lowercased strings for two strings,
otherwise 0. -/
def fieldMatchScore (v1 v2 : Option Value) : ℚ :=
  if v1 = v2 then 1
  else
    match v1, v2 with
    | some (.num a), some (.num b) =>
        if |a - b| / max (max |a| |b|) 1 < 1 / 100 then 9 / 10 else 0
    | some (.str a), some (.str b) => stringSimilarity a.toLower b.toLower
    | _, _ => 0

/-- Row similarity from `dataCleaner.ts`: column-average of the per-field
match scores. -/
def calculateRowSimilarity (r1 r2 : Row) (cols : List String) : ℚ :=
  ((cols.map (fun c => fieldMatchScore (lookupVal r1 c) (lookupVal r2 c))).sum) /
    (cols.length : ℚ)

def removeNearDupsGo (cols : List String) (tol : ℚ) :
    List Row → List Row → List Row × ℕ
  | acc, [] => (acc, 0)
  | acc, r :: tl =>
      if acc.any (fun e => decide (tol ≤ calculateRowSimilarity r e cols)) then
        let rest := removeNearDupsGo cols tol acc tl
        (rest.1, rest.2 + 1)
      else removeNearDupsGo cols tol (acc ++ [r]) tl

/-- Near-duplicate removal (`removeNearDuplicates`): greedy scan in row
order; a row is dropped iff its similarity to some previously accepted row
reaches the tolerance. -/
def removeNearDuplicates (data : List Row) (cols : List String)
    (tol : ℚ) : List Row × List LogEntry :=
  let res := removeNearDupsGo cols tol [] data
  (res.1,
    if res.2 > 0 then
      [{ operation := "Remove Near-Duplicates",
         details := "Removed " ++ toString res.2 ++ " near-duplicate row" ++
           (if res.2 > 1 then "s" else ""),
         rowsAffected := res.2,
         category := "cleaning" }]
    else [])

/-- Modelled from the claim's wording for the string score: "the count of
the shorter string's characters present in the longer string divided by the
longer string's length" (exact match scores 1).  The claim's words make no
provision for case folding. -/
def claimStringScore (s1 s2 : String) : ℚ :=
  if s1 = s2 then 1
  else
    let longer := if s1.length > s2.length then s1 else s2
    let shorter := if s1.length > s2.length then s2 else s1
    ((shorter.data.filter (fun c => longer.contains c)).length : ℚ) /
      (longer.length : ℚ)

/-- Modelled from the claim's wording: per-field score 1 for an exact
match, 0.9 for numerics within 1% relative difference, containment score
for strings — applied to the strings exactly as given. -/
def claimFieldScore (v1 v2 : Option Value) : ℚ :=
  if v1 = v2 then 1
  else
    match v1, v2 with
    | some (.num a), some (.num b) =>
        if |a - b| / max (max |a| |b|) 1 < 1 / 100 then 9 / 10 else 0
    | some (.str a), some (.str b) => claimStringScore a b
    | _, _ => 0

/-- The claim's row similarity: column-average of `claimFieldScore`. -/
def claimRowSimilarity (cols : List String) (r1 r2 : Row) : ℚ :=
  ((cols.map (fun c => claimFieldScore (lookupVal r1 c) (lookupVal r2 c))).sum) /
    (cols.length : ℚ)

/-- The amended per-field score: as `claimFieldScore`, but two strings are
scored on their lowercased forms (which is what the code does). -/
def claimFieldScoreCI (v1 v2 : Option Value) : ℚ :=
  if v1 = v2 then 1
  else
    match v1, v2 with
    | some (.num a), some (.num b) =>
        if |a - b| / max (max |a| |b|) 1 < 1 / 100 then 9 / 10 else 0
    | some (.str a), some (.str b) => claimStringScore a.toLower b.toLower
    | _, _ => 0

def claimRowSimilarityCI (cols : List String) (r1 r2 : Row) : ℚ :=
  ((cols.map (fun c => claimFieldScoreCI (lookupVal r1 c) (lookupVal r2 c))).sum) /
    (cols.length : ℚ)

/-- The claim's greedy scan, parameterized by the similarity measure:
process rows in order, dropping a row iff its similarity to some previously
accepted row meets or exceeds the tolerance. -/
def claimScan (sim : Row → Row → ℚ) (tol : ℚ) : List Row → List Row → List Row
  | acc, [] => acc
  | acc, r :: tl =>
      if acc.any (fun e => decide (tol ≤ sim r e)) then claimScan sim tol acc tl
      else claimScan sim tol (acc ++ [r]) tl

theorem stringSimilarity_eq_claim (s1 s2 : String) :
    stringSimilarity s1 s2 = claimStringScore s1 s2 := by
  unfold stringSimilarity claimStringScore
  by_cases h12 : s1 = s2
  · simp [h12]
  · rw [if_neg h12, if_neg h12]
    by_cases hz : s1.length = 0 ∨ s2.length = 0
    · rw [if_pos hz]
      rcases hz with h1 | h2
      · have hd : s1.data = [] := List.length_eq_zero.mp h1
        have hgt : ¬ s1.length > s2.length := by omega
        simp [hgt, hd]
      · have hd : s2.data = [] := List.length_eq_zero.mp h2
        by_cases hgt : s1.length > s2.length
        · simp [hgt, hd]
        · have h1 : s1.length = 0 := by omega
          have hd1 : s1.data = [] := List.length_eq_zero.mp h1
          simp [hgt, hd1]
    · rw [if_neg hz]

theorem fieldMatchScore_eq_claimCI (v1 v2 : Option Value) :
    fieldMatchScore v1 v2 = claimFieldScoreCI v1 v2 := by
  unfold fieldMatchScore claimFieldScoreCI
  by_cases h : v1 = v2
  · simp [h]
  · rw [if_neg h, if_neg h]
    cases v1 with
    | none => rfl
    | some w1 =>
        cases v2 with
        | none => cases w1 <;> rfl
        | some w2 =>
            cases w1 <;> cases w2 <;>
              simp only [stringSimilarity_eq_claim]

theorem calculateRowSimilarity_eq_claimCI (r1 r2 : Row) (cols : List String) :
    calculateRowSimilarity r1 r2 cols = claimRowSimilarityCI cols r1 r2 := by
  unfold calculateRowSimilarity claimRowSimilarityCI
  simp only [fieldMatchScore_eq_claimCI]

theorem removeNearDupsGo_eq_claimScan (cols : List String) (tol : ℚ)
    (data acc : List Row) :
    (removeNearDupsGo cols tol acc data).1 =
      claimScan (fun r e => claimRowSimilarityCI cols r e) tol acc data := by
  induction data generalizing acc with
  | nil => rfl
  | cons r tl ih =>
      simp only [removeNearDupsGo, claimScan, calculateRowSimilarity_eq_claimCI]
      by_cases hc :
          acc.any (fun e => decide (tol ≤ claimRowSimilarityCI cols r e)) = true
      · rw [if_pos hc, if_pos hc]
        exact ih acc
      · rw [if_neg hc, if_neg hc]
        exact ih (acc ++ [r])

/-- C8 counterexample. The claim's case-sensitive string score disagrees
with the code on rows `{c: "A"}` and `{c: "a"}` at tolerance 0.9: the code
scores the lowercased strings as identical (similarity 1) and drops the
second row, while the claim's score is 0 and keeps it. -/
theorem near_dedupe_claim_counterexample :
    (removeNearDuplicates [[("c", Value.str "A")], [("c", Value.str "a")]]
        ["c"] (9 / 10)).1 ≠
      claimScan (fun r e => claimRowSimilarity ["c"] r e) (9 / 10) []
        [[("c", Value.str "A")], [("c", Value.str "a")]] := by
  with_unfolding_all decide

/-- C8 amended. Near-duplicate removal is exactly the claim's greedy scan —
rows scanned in order, a row dropped iff its similarity to some previously
accepted row meets the tolerance — with the claim's column-averaged
per-field score, provided the string score is computed on the lowercased
strings; and the code's similarity function is exactly that amended
column-average. -/
theorem near_dedupe_characterization :
    (∀ (r1 r2 : Row) (cols : List String),
        calculateRowSimilarity r1 r2 cols = claimRowSimilarityCI cols r1 r2) ∧
      ∀ (data : List Row) (cols : List String) (tol : ℚ),
        (removeNearDuplicates data cols tol).1 =
          claimScan (fun r e => claimRowSimilarityCI cols r e) tol [] data :=
  ⟨calculateRowSimilarity_eq_claimCI,
    fun data cols tol => removeNearDupsGo_eq_claimScan cols tol data []⟩

/-- Column type inferred by the analyzer (`string|number|date|mixed`). -/
inductive ValType where
  | str
  | num
  | date
  | mixed
deriving DecidableEq, Repr

/-- Per-column statistics record (`ColumnStats` of `types/dataset`).
`variance` is absent because `analyzeColumn` never produces it (its
consumer `removeLowVarianceFeatures` therefore only ever prunes on
`uniqueCount`). -/
structure ColumnStats where
  name : String
  type : ValType
  totalCount : ℕ
  uniqueCount : ℕ
  missingCount : ℕ
  missingPercentage : ℚ
  min : Option ℚ := none
  max : Option ℚ := none
  mean : Option ℚ := none
  median : Option ℚ := none
  mode : Option Value := none
  stdDev : Option ℚ := none
  q1 : Option ℚ := none
  q3 : Option ℚ := none
deriving DecidableEq, Repr

/-- Anchored head of the analyzer's date regex: `^\d{4}-\d{2}-\d{2}`. -/
def datePatIso : List Char → Bool
  | a :: b :: c :: d :: '-' :: e :: f :: '-' :: g :: h :: _ =>
      a.isDigit && b.isDigit && c.isDigit && d.isDigit &&
        e.isDigit && f.isDigit && g.isDigit && h.isDigit
  | _ => false

/-- Unanchored alternative `\d{2}/\d{2}/\d{4}` tested at one position. -/
def datePatSlash : List Char → Bool
  | a :: b :: '/' :: c :: d :: '/' :: e :: f :: g :: h :: _ =>
      a.isDigit && b.isDigit && c.isDigit && d.isDigit &&
        e.isDigit && f.isDigit && g.isDigit && h.isDigit
  | _ => false

/-- Unanchored alternative `\d{2}-\d{2}-\d{4}` tested at one position. -/
def datePatDash : List Char → Bool
  | a :: b :: '-' :: c :: d :: '-' :: e :: f :: g :: h :: _ =>
      a.isDigit && b.isDigit && c.isDigit && d.isDigit &&
        e.isDigit && f.isDigit && g.isDigit && h.isDigit
  | _ => false

/-- Tests a position predicate at every suffix (regex search without `^`). -/
def anyTail (p : List Char → Bool) : List Char → Bool
  | [] => p []
  | c :: tl => p (c :: tl) || anyTail p tl

/-- The analyzer's date-likeness test: the first regex alternative is
anchored at the start by `^`, the other two may match anywhere. -/
def dateLike (s : String) : Bool :=
  datePatIso s.data || anyTail datePatSlash s.data || anyTail datePatDash s.data

/-- JS `Math.round` (round half up, also for negatives). -/
def jsRound (q : ℚ) : ℤ := ⌊q + 1 / 2⌋

/-- `Math.round(q * 100) / 100` — the 2-decimal rounding of the mean fill. -/
def round2 (q : ℚ) : ℚ := (jsRound (q * 100) : ℚ) / 100

/-- The non-missing cell values of one column, in row order. -/
def nonNullCells (data : List Row) (col : String) : List Value :=
  (data.map (fun r => lookupVal r col)).filterMap
    (fun o => match o with
      | some v => if isMissingCell (some v) then none else some v
      | none => none)

/-- The numeric values among the non-missing cells of one column. -/
def numericNonNull (data : List Row) (col : String) : List ℚ :=
  (nonNullCells data col).filterMap
    (fun v => match v with | .num q => some q | _ => none)

/-- Placeholder strings skipped by the first mode pass. -/
def genericPlaceholders : List String :=
  ["other", "unknown", "n/a", "na", "none", "missing", "undefined",
    "not specified"]

def isGenericVal : Value → Bool
  | .str s => genericPlaceholders.contains s.toLower
  | _ => false

/-- One pass of the analyzer's mode scan over the `(value, count)` pairs in
Map insertion order, skipping values selected by `skip`, keeping the first
value whose count strictly exceeds the running maximum. -/
def modePick (pairs : List (Value × ℕ)) (skip : Value → Bool) :
    Option Value × ℕ :=
  pairs.foldl
    (fun acc p => if ¬ skip p.1 = true ∧ acc.2 < p.2 then (some p.1, p.2) else acc)
    (none, 0)

/-- The string values among the non-missing cells of one column. -/
def stringNonNull (data : List Row) (col : String) : List String :=
  (nonNullCells data col).filterMap
    (fun v => match v with | .str s => some s | _ => none)

/-- The analyzer's type inference: all-numeric → `number`; numeric and
string mixed → `mixed`; over half of the strings date-like → `date`;
otherwise `string`. -/
def inferColType (data : List Row) (col : String) : ValType :=
  let nonNullValues := nonNullCells data col
  let numericValues := numericNonNull data col
  let stringValues := stringNonNull data col
  if numericValues.length = nonNullValues.length ∧ numericValues.length > 0
  then ValType.num
  else if stringValues.length > 0 ∧ numericValues.length > 0 then ValType.mixed
  else if stringValues.length > 0 ∧
      stringValues.length < 2 * (stringValues.filter dateLike).length
    then ValType.date
  else ValType.str

/-- The guard under which the analyzer computes the numeric statistics. -/
def hasNumericStats (data : List Row) (col : String) : Prop :=
  inferColType data col = ValType.num ∧ (numericNonNull data col).length > 0

instance (data : List Row) (col : String) : Decidable (hasNumericStats data col) :=
  inferInstanceAs (Decidable (_ ∧ _))

/-- The column analyzer (`analyzeColumn` of the data-analyzer module).
`Math.sqrt` for the standard deviation is modelled by `Rat.sqrt`. -/
def analyzeColumn (data : List Row) (columnName : String) : ColumnStats :=
  let values := data.map (fun r => lookupVal r columnName)
  let totalCount := values.length
  let missingCount := (values.filter (fun v => isMissingCell v)).length
  let missingPercentage :=
    if totalCount > 0 then ((missingCount : ℚ) / totalCount) * 100 else 0
  let nonNullValues := nonNullCells data columnName
  let numericValues := numericNonNull data columnName
  let type := inferColType data columnName
  let uniqueCount := (jsSet (nonNullValues.map jsString)).length
  let pairs := (jsSet nonNullValues).map (fun v => (v, nonNullValues.count v))
  let firstPass := modePick pairs isGenericVal
  let mode :=
    match firstPass.1 with
    | some v => some v
    | none => if pairs.length > 0 then (modePick pairs (fun _ => false)).1 else none
  let sorted := sortQ numericValues
  let hasNum := hasNumericStats data columnName
  let mean := numericValues.sum / (numericValues.length : ℚ)
  { name := columnName
    type := type
    totalCount := totalCount
    uniqueCount := uniqueCount
    missingCount := missingCount
    missingPercentage := missingPercentage
    min := if hasNum then sorted.head? else none
    max := if hasNum then sorted.getLast? else none
    mean := if hasNum then some mean else none
    median :=
      if hasNum then
        if sorted.length % 2 = 1 then sorted.get? (sorted.length / 2)
        else
          match sorted.get? (sorted.length / 2 - 1), sorted.get? (sorted.length / 2) with
          | some a, some b => some ((a + b) / 2)
          | _, _ => none
      else none
    mode := mode
    stdDev :=
      if hasNum then
        some (Rat.sqrt
          ((numericValues.map (fun v => (v - mean) ^ 2)).sum /
            (numericValues.length : ℚ)))
      else none
    q1 := if hasNum then sorted.get? (sorted.length / 4) else none
    q3 := if hasNum then sorted.get? (3 * sorted.length / 4) else none }

/-- `analyzeColumns`: one stats record per requested column, in order. -/
def analyzeColumns (data : List Row) (cols : List String) : List ColumnStats :=
  cols.map (fun c => analyzeColumn data c)

theorem sortQ_get?_le (l : List ℚ) (i j : ℕ) (a b : ℚ) (hij : i ≤ j)
    (ha : (sortQ l).get? i = some a) (hb : (sortQ l).get? j = some b) :
    a ≤ b := by
  rcases Nat.lt_or_ge i j with hlt | hge
  · obtain ⟨hi, hgi⟩ := List.get?_eq_some.mp ha
    obtain ⟨hj, hgj⟩ := List.get?_eq_some.mp hb
    have hp := sortQ_pairwise l
    have := List.pairwise_iff_get.mp hp ⟨i, hi⟩ ⟨j, hj⟩ hlt
    rw [hgi, hgj] at this
    exact this
  · have hij2 : i = j := le_antisymm hij hge
    subst hij2
    rw [ha] at hb
    exact le_of_eq (Option.some.injEq .. ▸ hb)

theorem analyzeColumn_q1_le_q3 (data : List Row) (col : String) (a b : ℚ)
    (h1 : (analyzeColumn data col).q1 = some a)
    (h3 : (analyzeColumn data col).q3 = some b) : a ≤ b := by
  unfold analyzeColumn at h1 h3
  simp only at h1 h3
  by_cases hg : hasNumericStats data col
  · rw [if_pos hg] at h1 h3
    exact sortQ_get?_le _ _ _ _ _ (by omega) h1 h3
  · rw [if_neg hg] at h1
    exact absurd h1 (by simp)

inductive MissingStrategy where
  | remove
  | mean
  | median
  | mode
  | forward
  | backward
  | constant
deriving DecidableEq, Repr

/-- One in-order pass of forward fill on one column, carrying the JS
`lastValidValue` variable (initially `null`; a non-missing cell value can
never be `null`, so the `!== null` test picks out "a value was seen"). -/
def forwardFillGo (col : String) (lastValid : Value) :
    List Row → List Row × ℕ
  | [] => ([], 0)
  | r :: tl =>
      if isMissingCell (lookupVal r col) then
        if lastValid ≠ Value.null then
          let rest := forwardFillGo col lastValid tl
          (setVal r col lastValid :: rest.1, rest.2 + 1)
        else
          let rest := forwardFillGo col lastValid tl
          (r :: rest.1, rest.2)
      else
        let rest := forwardFillGo col ((lookupVal r col).getD Value.null) tl
        (r :: rest.1, rest.2)

/-- The forward/backward branch of `handleMissingValues` for one column:
backward fill is the same scan over the reversed index sequence. -/
def fillDirectionStep (isFwd : Bool) (st : List Row × List LogEntry)
    (col : String) : List Row × List LogEntry :=
  let res :=
    if isFwd then forwardFillGo col Value.null st.1
    else
      let rev := forwardFillGo col Value.null st.1.reverse
      (rev.1.reverse, rev.2)
  (res.1,
    st.2 ++
      (if res.2 > 0 then
        [{ operation := if isFwd then "Forward Fill" else "Backward Fill",
           column := some col,
           rowsAffected := res.2,
           category := "cleaning" }]
      else []))

/-- The `fillValue` computation of the mean/median/mode/constant branch of
`handleMissingValues`, with `Value.null` playing the JS `null` initial
value (and `constantValue.isSome` playing `constantValue !== undefined`). -/
def computeFillValue (strategy : MissingStrategy) (constantValue : Option Value)
    (cstats : ColumnStats) : Value :=
  if strategy = .constant ∧ constantValue.isSome then constantValue.getD .null
  else if strategy = .mode ∧ cstats.mode.isSome then cstats.mode.getD .null
  else if cstats.type = .num then
    if strategy = .mean ∧ cstats.mean.isSome then .num (round2 (cstats.mean.getD 0))
    else if strategy = .median ∧ cstats.median.isSome then
      .num (cstats.median.getD 0)
    else .null
  else .null

/-- The per-column step of the fill branch of `handleMissingValues`:
no stats record → skip; invalid fill value (null or empty) → skip without
log; otherwise fill every missing cell and log iff at least one changed. -/
def fillStep (stats : List ColumnStats) (strategy : MissingStrategy)
    (constantValue : Option Value) (st : List Row × List LogEntry)
    (col : String) : List Row × List LogEntry :=
  match stats.find? (fun s => s.name == col) with
  | none => st
  | some cstats =>
      let fillValue := computeFillValue strategy constantValue cstats
      if fillValue ≠ Value.null ∧ fillValue ≠ Value.str "" then
        let filled := (st.1.filter (fun r => isMissingCell (lookupVal r col))).length
        let newData := st.1.map (fun r =>
          if isMissingCell (lookupVal r col) then setVal r col fillValue else r)
        (newData,
          st.2 ++
            (if filled > 0 then
              [{ operation := "Fill Missing Values",
                 column := some col,
                 rowsAffected := filled,
                 category := "cleaning" }]
            else []))
      else st

/-- Missing-value handling from `dataCleaner.ts` (`handleMissingValues`). -/
def handleMissingValues (data : List Row) (cols : List String)
    (stats : List ColumnStats) (strategy : MissingStrategy)
    (constantValue : Option Value) (threshold : Option ℚ) :
    List Row × List LogEntry :=
  match strategy with
  | .remove =>
      let kept := data.filter (fun r =>
        let missingCnt :=
          (cols.filter (fun c => isMissingCell (lookupVal r c))).length
        match threshold with
        | some t => decide ((missingCnt : ℚ) / (cols.length : ℚ) ≤ t)
        | none => missingCnt = 0)
      let removed := data.length - kept.length
      (kept,
        if removed > 0 then
          [{ operation := "Remove Missing Values",
             rowsAffected := removed,
             category := "cleaning" }]
        else [])
  | .forward => cols.foldl (fillDirectionStep true) (data, [])
  | .backward => cols.foldl (fillDirectionStep false) (data, [])
  | _ => cols.foldl (fillStep stats strategy constantValue) (data, [])

/-- The fill value the fill branch computes for one column (`Value.null`
when the column has no stats record, matching the skip in the code). -/
def fillValueFor (stats : List ColumnStats) (strategy : MissingStrategy)
    (constantValue : Option Value) (col : String) : Value :=
  match stats.find? (fun s => s.name == col) with
  | none => Value.null
  | some cstats => computeFillValue strategy constantValue cstats

theorem isMissingCell_some_valid (v : Value)
    (h : v ≠ Value.null ∧ v ≠ Value.str "") :
    isMissingCell (some v) = false := by
  cases v with
  | str s =>
      have hs : s ≠ "" := fun he => h.2 (by rw [he])
      simp [isMissingCell, hs]
  | num q => rfl
  | boolean b => rfl
  | null => exact absurd rfl h.1

theorem fillStep_preserves_nomissing (stats : List ColumnStats)
    (strategy : MissingStrategy) (cv : Option Value)
    (st : List Row × List LogEntry) (c' col : String)
    (hP : ∀ r ∈ st.1, isMissingCell (lookupVal r col) = false) :
    ∀ r ∈ (fillStep stats strategy cv st c').1,
      isMissingCell (lookupVal r col) = false := by
  unfold fillStep
  cases hf : stats.find? (fun s => s.name == c') with
  | none => exact hP
  | some cstats =>
      simp only
      by_cases hv : computeFillValue strategy cv cstats ≠ Value.null ∧
          computeFillValue strategy cv cstats ≠ Value.str ""
      · rw [if_pos hv]
        intro r hr
        obtain ⟨r₀, hr₀, rfl⟩ := List.mem_map.mp hr
        by_cases hm : isMissingCell (lookupVal r₀ c') = true
        · rw [if_pos hm]
          by_cases hcc : c' = col
          · subst hcc
            rw [lookupVal_setVal_self]
            exact isMissingCell_some_valid _ hv
          · rw [lookupVal_setVal_ne _ _ _ _ (Ne.symm hcc)]
            exact hP r₀ hr₀
        · rw [if_neg hm]
          exact hP r₀ hr₀
      · rw [if_neg hv]
        exact hP

theorem fillStep_establishes_nomissing (stats : List ColumnStats)
    (strategy : MissingStrategy) (cv : Option Value)
    (st : List Row × List LogEntry) (col : String)
    (hvalid : fillValueFor stats strategy cv col ≠ Value.null ∧
      fillValueFor stats strategy cv col ≠ Value.str "") :
    ∀ r ∈ (fillStep stats strategy cv st col).1,
      isMissingCell (lookupVal r col) = false := by
  unfold fillStep
  unfold fillValueFor at hvalid
  cases hf : stats.find? (fun s => s.name == col) with
  | none =>
      rw [hf] at hvalid
      exact absurd rfl hvalid.1
  | some cstats =>
      rw [hf] at hvalid
      simp only
      rw [if_pos hvalid]
      intro r hr
      obtain ⟨r₀, hr₀, rfl⟩ := List.mem_map.mp hr
      by_cases hm : isMissingCell (lookupVal r₀ col) = true
      · rw [if_pos hm, lookupVal_setVal_self]
        exact isMissingCell_some_valid _ hvalid
      · rw [if_neg hm]
        simpa using hm

theorem fillFold_preserves_nomissing (stats : List ColumnStats)
    (strategy : MissingStrategy) (cv : Option Value) (cols : List String)
    (st : List Row × List LogEntry) (col : String)
    (hP : ∀ r ∈ st.1, isMissingCell (lookupVal r col) = false) :
    ∀ r ∈ (cols.foldl (fillStep stats strategy cv) st).1,
      isMissingCell (lookupVal r col) = false := by
  induction cols generalizing st with
  | nil => exact hP
  | cons c' tl ih =>
      exact ih _ (fillStep_preserves_nomissing stats strategy cv st c' col hP)

theorem fillFold_nomissing (stats : List ColumnStats)
    (strategy : MissingStrategy) (cv : Option Value) (cols : List String)
    (st : List Row × List LogEntry) (col : String) (hcol : col ∈ cols)
    (hvalid : fillValueFor stats strategy cv col ≠ Value.null ∧
      fillValueFor stats strategy cv col ≠ Value.str "") :
    ∀ r ∈ (cols.foldl (fillStep stats strategy cv) st).1,
      isMissingCell (lookupVal r col) = false := by
  induction cols generalizing st with
  | nil => simp at hcol
  | cons c' tl ih =>
      by_cases htl : col ∈ tl
      · exact ih _ htl
      · have hc : c' = col := by
          rcases List.mem_cons.mp hcol with h | h
          · exact h.symm
          · exact absurd h htl
        subst hc
        exact fillFold_preserves_nomissing stats strategy cv tl _ c'
          (fillStep_establishes_nomissing stats strategy cv st c' hvalid)

theorem fillStep_invalid_skip (stats : List ColumnStats)
    (strategy : MissingStrategy) (cv : Option Value)
    (st : List Row × List LogEntry) (col : String)
    (hinv : ¬(fillValueFor stats strategy cv col ≠ Value.null ∧
      fillValueFor stats strategy cv col ≠ Value.str "")) :
    fillStep stats strategy cv st col = st := by
  unfold fillStep
  unfold fillValueFor at hinv
  cases hf : stats.find? (fun s => s.name == col) with
  | none => rfl
  | some cstats =>
      rw [hf] at hinv
      simp only
      rw [if_neg hinv]

theorem fillStep_other_col (stats : List ColumnStats)
    (strategy : MissingStrategy) (cv : Option Value)
    (st : List Row × List LogEntry) (c' col : String) (hne : c' ≠ col) :
    (fillStep stats strategy cv st c').1.map (fun r => lookupVal r col) =
        st.1.map (fun r => lookupVal r col) ∧
      ∀ log ∈ (fillStep stats strategy cv st c').2,
        log ∈ st.2 ∨ log.column = some c' := by
  unfold fillStep
  cases hf : stats.find? (fun s => s.name == c') with
  | none => exact ⟨rfl, fun log h => Or.inl h⟩
  | some cstats =>
      simp only
      by_cases hv : computeFillValue strategy cv cstats ≠ Value.null ∧
          computeFillValue strategy cv cstats ≠ Value.str ""
      · rw [if_pos hv]
        constructor
        · rw [List.map_map]
          apply List.map_congr_left
          intro r _
          simp only [Function.comp]
          by_cases hm : isMissingCell (lookupVal r c') = true
          · rw [if_pos hm, lookupVal_setVal_ne _ _ _ _ (Ne.symm hne)]
          · rw [if_neg hm]
        · intro log hlog
          rcases List.mem_append.mp hlog with h | h
          · exact Or.inl h
          · right
            by_cases htest :
                (st.1.filter (fun r => isMissingCell (lookupVal r c'))).length > 0
            · rw [if_pos htest] at h
              simp only [List.mem_singleton] at h
              subst h
              rfl
            · rw [if_neg htest] at h
              simp at h
      · rw [if_neg hv]
        exact ⟨rfl, fun log h => Or.inl h⟩

theorem fillFold_invalid (stats : List ColumnStats)
    (strategy : MissingStrategy) (cv : Option Value) (cols : List String)
    (st : List Row × List LogEntry) (col : String)
    (hinv : ¬(fillValueFor stats strategy cv col ≠ Value.null ∧
      fillValueFor stats strategy cv col ≠ Value.str "")) :
    (cols.foldl (fillStep stats strategy cv) st).1.map
        (fun r => lookupVal r col) = st.1.map (fun r => lookupVal r col) ∧
      ∀ log ∈ (cols.foldl (fillStep stats strategy cv) st).2,
        log ∈ st.2 ∨ log.column ≠ some col := by
  induction cols generalizing st with
  | nil => exact ⟨rfl, fun log h => Or.inl h⟩
  | cons c' tl ih =>
      by_cases hcc : c' = col
      · subst hcc
        simp only [List.foldl_cons]
        rw [fillStep_invalid_skip stats strategy cv st c' hinv]
        exact ih st
      · obtain ⟨hmap, hlog⟩ :=
          fillStep_other_col stats strategy cv st c' col hcc
        obtain ⟨ihmap, ihlog⟩ := ih (fillStep stats strategy cv st c')
        refine ⟨by rw [List.foldl_cons, ihmap, hmap], ?_⟩
        intro log h
        rcases ihlog log (by simpa using h) with h1 | h1
        · rcases hlog log h1 with h2 | h2
          · exact Or.inl h2
          · exact Or.inr (by simp [h2, hcc])
        · exact Or.inr h1

/-- C4. For the mean/median/mode/constant strategies, after
`handleMissingValues` the treated column has zero missing cells (null,
absent, or empty), unless the computed fill value for the column is itself
null or empty, in which case no cell of the column changes and no log entry
carries that column. -/
theorem missing_fill_totality (data : List Row) (cols : List String)
    (stats : List ColumnStats) (strategy : MissingStrategy)
    (cv : Option Value) (thr : Option ℚ) (col : String)
    (hcol : col ∈ cols)
    (hstrat : strategy = .mean ∨ strategy = .median ∨ strategy = .mode ∨
      strategy = .constant) :
    ((fillValueFor stats strategy cv col ≠ Value.null ∧
        fillValueFor stats strategy cv col ≠ Value.str "") →
      ∀ r ∈ (handleMissingValues data cols stats strategy cv thr).1,
        isMissingCell (lookupVal r col) = false) ∧
      (¬(fillValueFor stats strategy cv col ≠ Value.null ∧
          fillValueFor stats strategy cv col ≠ Value.str "") →
        (handleMissingValues data cols stats strategy cv thr).1.map
            (fun r => lookupVal r col) = data.map (fun r => lookupVal r col) ∧
          ∀ log ∈ (handleMissingValues data cols stats strategy cv thr).2,
            log.column ≠ some col) := by
  have hunf : handleMissingValues data cols stats strategy cv thr =
      cols.foldl (fillStep stats strategy cv) (data, []) := by
    rcases hstrat with rfl | rfl | rfl | rfl <;> rfl
  rw [hunf]
  constructor
  · intro hvalid
    exact fillFold_nomissing stats strategy cv cols (data, []) col hcol hvalid
  · intro hinv
    obtain ⟨hmap, hlog⟩ :=
      fillFold_invalid stats strategy cv cols (data, []) col hinv
    refine ⟨hmap, fun log h => ?_⟩
    rcases hlog log h with h1 | h1
    · simp at h1
    · exact h1

/-- Concrete table for the C4 witness: column `[1, 2, 3, null, 5]`. -/
def meanFillWitnessData : List Row :=
  [[("v", Value.num 1)], [("v", Value.num 2)], [("v", Value.num 3)],
    [("v", Value.null)], [("v", Value.num 5)]]

/-- C4 witness: on the column `[1, 2, 3, null, 5]` with strategy `mean`,
the fill value 2.75 is valid, the filled column has no missing cells, and
the null cell received `round(2.75 * 100) / 100 = 2.75`. -/
theorem missing_fill_totality_witness :
    (∀ r ∈ (handleMissingValues meanFillWitnessData ["v"]
        (analyzeColumns meanFillWitnessData ["v"]) .mean none none).1,
      isMissingCell (lookupVal r "v") = false) ∧
      (handleMissingValues meanFillWitnessData ["v"]
          (analyzeColumns meanFillWitnessData ["v"]) .mean none none).1 =
        [[("v", Value.num 1)], [("v", Value.num 2)], [("v", Value.num 3)],
          [("v", Value.num (11 / 4))], [("v", Value.num 5)]] := by
  constructor
  · exact (missing_fill_totality meanFillWitnessData ["v"]
      (analyzeColumns meanFillWitnessData ["v"]) .mean none none "v"
      (by simp) (Or.inl rfl)).1 (by with_unfolding_all decide)
  · with_unfolding_all decide

inductive OutlierMethod where
  | iqr
  | zscore
  | percentile
deriving DecidableEq, Repr

inductive OutlierTreatment where
  | remove
  | cap
  | replace
  | flag
deriving DecidableEq, Repr

/-- The bound computation of `removeOutliers`: per method, `none` when the
required statistics are absent (the code then returns without treating the
column). -/
def outlierBounds (method : OutlierMethod) (cstats : ColumnStats)
    (threshold : ℚ) : Option (ℚ × ℚ) :=
  match method with
  | .iqr =>
      match cstats.q1, cstats.q3 with
      | some q1, some q3 =>
          some (q1 - threshold * (q3 - q1), q3 + threshold * (q3 - q1))
      | _, _ => none
  | .zscore =>
      match cstats.mean, cstats.stdDev with
      | some m, some s => some (m - threshold * s, m + threshold * s)
      | _, _ => none
  | .percentile =>
      match cstats.min, cstats.max with
      | some mn, some mx =>
          some (mn + threshold / 100 * (mx - mn),
            mx - threshold / 100 * (mx - mn))
      | _, _ => none

/-- The cap (winsorize) row transform of `removeOutliers`: clamp a numeric
cell of `col` to the nearest bound, leave the row alone otherwise. -/
def capCell (lb ub : ℚ) (col : String) (r : Row) : Row :=
  match lookupVal r col with
  | some (.num v) =>
      if v < lb then setVal r col (.num lb)
      else if ub < v then setVal r col (.num ub)
      else r
  | _ => r

theorem capCell_contained (lb ub : ℚ) (col : String) (r : Row)
    (hle : lb ≤ ub) (v : ℚ)
    (hv : lookupVal (capCell lb ub col r) col = some (.num v)) :
    lb ≤ v ∧ v ≤ ub := by
  unfold capCell at hv
  split at hv
  · rename_i v₀ heq
    split at hv
    · rw [lookupVal_setVal_self] at hv
      obtain rfl : lb = v := by simpa using hv
      exact ⟨le_refl _, hle⟩
    · split at hv
      · rw [lookupVal_setVal_self] at hv
        obtain rfl : ub = v := by simpa using hv
        exact ⟨hle, le_refl _⟩
      · rename_i hlo hhi
        rw [heq] at hv
        obtain rfl : v₀ = v := by simpa using hv
        exact ⟨le_of_not_lt hlo, le_of_not_lt hhi⟩
  · rename_i hne
    exact absurd hv (hne v)

theorem capCell_other (lb ub : ℚ) (c' col : String) (r : Row)
    (hne : c' ≠ col) :
    lookupVal (capCell lb ub c' r) col = lookupVal r col := by
  unfold capCell
  split
  · split
    · exact lookupVal_setVal_ne _ _ _ _ (Ne.symm hne)
    · split
      · exact lookupVal_setVal_ne _ _ _ _ (Ne.symm hne)
      · rfl
  · rfl

/-- The per-column step of `removeOutliers` (`dataCleaner.ts`): skip
columns without numeric stats; otherwise apply the selected treatment with
the method's bounds, logging iff any outlier was affected. -/
def outlierStep (stats : List ColumnStats) (method : OutlierMethod)
    (treatment : OutlierTreatment) (threshold : ℚ)
    (st : List Row × List LogEntry) (col : String) :
    List Row × List LogEntry :=
  match stats.find? (fun s => s.name == col) with
  | none => st
  | some cstats =>
      if cstats.type ≠ ValType.num then st
      else
        match outlierBounds method cstats threshold with
        | none => st
        | some (lb, ub) =>
            match treatment with
            | .remove =>
                let kept := st.1.filter (fun r =>
                  match lookupVal r col with
                  | some (.num v) => decide (lb ≤ v ∧ v ≤ ub)
                  | _ => true)
                let cnt := st.1.length - kept.length
                (kept,
                  st.2 ++
                    (if cnt > 0 then
                      [{ operation := "Outlier Removal", column := some col,
                         rowsAffected := cnt, category := "cleaning" }]
                    else []))
            | .cap =>
                let cnt := (st.1.filter (fun r =>
                  match lookupVal r col with
                  | some (.num v) => decide (v < lb ∨ ub < v)
                  | _ => false)).length
                let newData := st.1.map (capCell lb ub col)
                (newData,
                  st.2 ++
                    (if cnt > 0 then
                      [{ operation := "Outlier Capping", column := some col,
                         rowsAffected := cnt, category := "cleaning" }]
                    else []))
            | .replace =>
                let rv :=
                  match cstats.median with
                  | some m => m
                  | none => match cstats.mean with | some m => m | none => 0
                let cnt := (st.1.filter (fun r =>
                  match lookupVal r col with
                  | some (.num v) => decide (v < lb ∨ ub < v)
                  | _ => false)).length
                let newData := st.1.map (fun r =>
                  match lookupVal r col with
                  | some (.num v) =>
                      if v < lb ∨ ub < v then setVal r col (.num rv) else r
                  | _ => r)
                (newData,
                  st.2 ++
                    (if cnt > 0 then
                      [{ operation := "Outlier Replacement", column := some col,
                         rowsAffected := cnt, category := "cleaning" }]
                    else []))
            | .flag =>
                let flagCol := col ++ "_is_outlier"
                let cnt := (st.1.filter (fun r =>
                  match lookupVal r col with
                  | some (.num v) => decide (v < lb ∨ ub < v)
                  | _ => false)).length
                let newData := st.1.map (fun r =>
                  match lookupVal r col with
                  | some (.num v) =>
                      setVal r flagCol (.boolean (decide (v < lb ∨ ub < v)))
                  | _ => setVal r flagCol (.boolean false))
                (newData,
                  st.2 ++
                    (if cnt > 0 then
                      [{ operation := "Outlier Flagging", column := some col,
                         rowsAffected := cnt, category := "cleaning" }]
                    else []))

/-- Outlier treatment from `dataCleaner.ts` (`removeOutliers`). -/
def removeOutliers (data : List Row) (cols : List String)
    (stats : List ColumnStats) (method : OutlierMethod)
    (treatment : OutlierTreatment) (threshold : ℚ) :
    List Row × List LogEntry :=
  cols.foldl (outlierStep stats method treatment threshold) (data, [])

theorem analyzeColumns_find (data : List Row) (cols : List String)
    (col : String) (hcol : col ∈ cols) :
    (analyzeColumns data cols).find? (fun s => s.name == col) =
      some (analyzeColumn data col) := by
  induction cols with
  | nil => simp at hcol
  | cons c' tl ih =>
      by_cases hc : c' = col
      · subst hc
        have hname : (analyzeColumn data c').name = c' := rfl
        simp [analyzeColumns, List.find?, hname]
      · have hname : ((analyzeColumn data c').name == col) = false := by
          have : (analyzeColumn data c').name = c' := rfl
          simp [this, hc]
        rcases List.mem_cons.mp hcol with h | h
        · exact absurd h.symm hc
        · simpa [analyzeColumns, List.find?, hname] using ih h

/-- Containment after one cap pass on the column itself. -/
theorem outlierStep_cap_establish (stats : List ColumnStats)
    (cstats : ColumnStats) (method : OutlierMethod) (threshold : ℚ)
    (st : List Row × List LogEntry) (col : String) (lb ub : ℚ)
    (hfind : stats.find? (fun s => s.name == col) = some cstats)
    (htype : cstats.type = ValType.num)
    (hbounds : outlierBounds method cstats threshold = some (lb, ub))
    (hle : lb ≤ ub) :
    ∀ r ∈ (outlierStep stats method .cap threshold st col).1,
      ∀ v : ℚ, lookupVal r col = some (.num v) → lb ≤ v ∧ v ≤ ub := by
  unfold outlierStep
  rw [hfind]
  simp only
  rw [if_neg (by simp [htype]), hbounds]
  intro r hr v hv
  obtain ⟨r₀, hr₀, rfl⟩ := List.mem_map.mp hr
  exact capCell_contained lb ub col r₀ hle v hv

/-- Any cap step preserves containment at a fixed column (treating another
column leaves the fixed column's cells unchanged; re-treating the same
column re-establishes the same bounds). -/
theorem outlierStep_cap_preserve (stats : List ColumnStats)
    (method : OutlierMethod) (threshold : ℚ)
    (st : List Row × List LogEntry) (c' col : String) (lb ub : ℚ)
    (hstats : ∀ cstats, stats.find? (fun s => s.name == c') = some cstats →
      c' = col → cstats.type = ValType.num →
      outlierBounds method cstats threshold = some (lb, ub))
    (hle : lb ≤ ub)
    (hP : ∀ r ∈ st.1, ∀ v : ℚ, lookupVal r col = some (.num v) →
      lb ≤ v ∧ v ≤ ub) :
    ∀ r ∈ (outlierStep stats method .cap threshold st c').1,
      ∀ v : ℚ, lookupVal r col = some (.num v) → lb ≤ v ∧ v ≤ ub := by
  by_cases hcc : c' = col
  · subst hcc
    cases hfind : stats.find? (fun s => s.name == c') with
    | none =>
        unfold outlierStep
        rw [hfind]
        exact hP
    | some cstats =>
        by_cases htype : cstats.type = ValType.num
        · exact outlierStep_cap_establish stats cstats method threshold st c'
            lb ub hfind htype (hstats cstats hfind rfl htype) hle
        · unfold outlierStep
          rw [hfind]
          simp only
          rw [if_pos (by simpa using htype)]
          exact hP
  · unfold outlierStep
    cases hfind : stats.find? (fun s => s.name == c') with
    | none => exact hP
    | some cstats =>
        simp only
        by_cases htype : cstats.type = ValType.num
        · rw [if_neg (by simp [htype])]
          cases hbounds : outlierBounds method cstats threshold with
          | none => exact hP
          | some p =>
              obtain ⟨lb', ub'⟩ := p
              intro r hr v hv
              obtain ⟨r₀, hr₀, rfl⟩ := List.mem_map.mp hr
              rw [capCell_other lb' ub' c' col r₀ hcc] at hv
              exact hP r₀ hr₀ v hv
        · rw [if_pos (by simpa using htype)]
          exact hP

theorem outlierFold_cap_preserve (stats : List ColumnStats)
    (method : OutlierMethod) (threshold : ℚ) (tl : List String)
    (st : List Row × List LogEntry) (col : String) (cstats : ColumnStats)
    (lb ub : ℚ)
    (hfind : stats.find? (fun s => s.name == col) = some cstats)
    (hbounds : outlierBounds method cstats threshold = some (lb, ub))
    (hle : lb ≤ ub)
    (hP : ∀ r ∈ st.1, ∀ v : ℚ, lookupVal r col = some (.num v) →
      lb ≤ v ∧ v ≤ ub) :
    ∀ r ∈ (tl.foldl (outlierStep stats method .cap threshold) st).1,
      ∀ v : ℚ, lookupVal r col = some (.num v) → lb ≤ v ∧ v ≤ ub := by
  induction tl generalizing st with
  | nil => exact hP
  | cons c' tl2 ih =>
      refine ih _ (outlierStep_cap_preserve stats method threshold st c' col
        lb ub ?_ hle hP)
      intro cstats' hfind' hcc _
      subst hcc
      rw [hfind] at hfind'
      obtain rfl : cstats = cstats' := by simpa using hfind'
      exact hbounds

theorem outlierFold_cap_contained (stats : List ColumnStats)
    (method : OutlierMethod) (threshold : ℚ) (cols : List String)
    (st : List Row × List LogEntry) (col : String) (cstats : ColumnStats)
    (lb ub : ℚ)
    (hfind : stats.find? (fun s => s.name == col) = some cstats)
    (htype : cstats.type = ValType.num)
    (hbounds : outlierBounds method cstats threshold = some (lb, ub))
    (hle : lb ≤ ub) (hcol : col ∈ cols) :
    ∀ r ∈ (cols.foldl (outlierStep stats method .cap threshold) st).1,
      ∀ v : ℚ, lookupVal r col = some (.num v) → lb ≤ v ∧ v ≤ ub := by
  induction cols generalizing st with
  | nil => simp at hcol
  | cons c' tl ih =>
      by_cases htl : col ∈ tl
      · exact ih _ htl
      · have hc : c' = col := by
          rcases List.mem_cons.mp hcol with h | h
          · exact h.symm
          · exact absurd h htl
        subst hc
        exact outlierFold_cap_preserve stats method threshold tl _ c' cstats
          lb ub hfind hbounds hle
          (outlierStep_cap_establish stats cstats method threshold st c'
            lb ub hfind htype hbounds hle)

theorem analyzeColumn_type_of_q1 (data : List Row) (col : String) (a : ℚ)
    (h1 : (analyzeColumn data col).q1 = some a) :
    (analyzeColumn data col).type = ValType.num := by
  unfold analyzeColumn at h1 ⊢
  simp only at h1 ⊢
  by_cases hg : hasNumericStats data col
  · exact hg.1
  · rw [if_neg hg] at h1
    simp at h1

/-- C5. After `cap` treatment with method IQR and threshold `k ≥ 0` on a
column whose analyzer stats expose the floor-index quartiles `Q1 = a` and
`Q3 = b`, every numeric value of the column lies in
`[Q1 - k·IQR, Q3 + k·IQR]` inclusive. -/
theorem outlier_cap_containment (data : List Row) (cols : List String)
    (col : String) (k a b : ℚ) (hk : 0 ≤ k) (hcol : col ∈ cols)
    (h1 : (analyzeColumn data col).q1 = some a)
    (h3 : (analyzeColumn data col).q3 = some b) :
    ∀ r ∈ (removeOutliers data cols (analyzeColumns data cols)
        .iqr .cap k).1,
      ∀ v : ℚ, lookupVal r col = some (.num v) →
        a - k * (b - a) ≤ v ∧ v ≤ b + k * (b - a) := by
  have hab : a ≤ b := analyzeColumn_q1_le_q3 data col a b h1 h3
  have hle : a - k * (b - a) ≤ b + k * (b - a) := by nlinarith
  have htype : (analyzeColumn data col).type = ValType.num :=
    analyzeColumn_type_of_q1 data col a h1
  have hbounds : outlierBounds .iqr (analyzeColumn data col) k =
      some (a - k * (b - a), b + k * (b - a)) := by
    unfold outlierBounds
    rw [h1, h3]
  have hfind := analyzeColumns_find data cols col hcol
  unfold removeOutliers
  exact outlierFold_cap_contained (analyzeColumns data cols) .iqr k cols
    (data, []) col (analyzeColumn data col) _ _ hfind htype hbounds hle hcol

/-- Concrete column `[10, 12, 11, 13, 100]` of the spec's scenario 3. -/
def outlierWitnessData : List Row :=
  [[("v", Value.num 10)], [("v", Value.num 12)], [("v", Value.num 11)],
    [("v", Value.num 13)], [("v", Value.num 100)]]

/-- C5 witness: on `[10, 12, 11, 13, 100]` with IQR cap at `k = 1.5`, the
analyzer yields `Q1 = 11`, `Q3 = 13`, every value ends inside
`[8, 16]`, and the value 100 is capped to exactly 16. -/
theorem outlier_cap_containment_witness :
    (∀ r ∈ (removeOutliers outlierWitnessData ["v"]
        (analyzeColumns outlierWitnessData ["v"]) .iqr .cap (3 / 2)).1,
      ∀ v : ℚ, lookupVal r "v" = some (.num v) →
        11 - 3 / 2 * (13 - 11) ≤ v ∧ v ≤ 13 + 3 / 2 * (13 - 11)) ∧
      (removeOutliers outlierWitnessData ["v"]
          (analyzeColumns outlierWitnessData ["v"]) .iqr .cap (3 / 2)).1 =
        [[("v", Value.num 10)], [("v", Value.num 12)], [("v", Value.num 11)],
          [("v", Value.num 13)], [("v", Value.num 16)]] := by
  constructor
  · exact outlier_cap_containment outlierWitnessData ["v"] "v" (3 / 2) 11 13
      (by norm_num) (by simp) (by with_unfolding_all decide)
      (by with_unfolding_all decide)
  · with_unfolding_all decide

/-- The column's raw values with JS `null`/`undefined` filtered out
(`data.map(row => row[column]).filter(v => v !== null && v !== undefined)`
of `oneHotEncode`); note the empty string survives this filter. -/
def rawColumnValues (data : List Row) (column : String) : List Value :=
  data.filterMap (fun r =>
    match lookupVal r column with
    | none => none
    | some Value.null => none
    | some v => some v)

/-- `oneHotEncode`'s category list: the distinct stringified non-null
values, sorted lexicographically. -/
def oneHotCategories (data : List Row) (column : String) : List String :=
  sortStr ((jsSet (rawColumnValues data column)).map jsString)

/-- One-hot encoding from `encoders.ts` (`oneHotEncode`): one indicator
column `column_cat` per category (minus the first when `dropFirst`), set to
1 on the rows whose stringified value (`String(row[column] ?? '')`) equals
the category, then the source column is deleted.  Returns the new table and
the generated column names (the encoder config and log entry, which no
claim inspects, are not modelled). -/
def stringifiedCell (row : Row) (column : String) : String :=
  match lookupVal row column with
  | none => ""
  | some Value.null => ""
  | some v => jsString v

def oneHotEncode (data : List Row) (column : String) (dropFirst : Bool) :
    List Row × List String :=
  let categories := oneHotCategories data column
  let valuesToEncode := if dropFirst then categories.drop 1 else categories
  let newColumns := valuesToEncode.map (fun v => column ++ "_" ++ v)
  let outData := data.map (fun row =>
    removeKey
      (writeCells row (valuesToEncode.map (fun cat =>
        (column ++ "_" ++ cat,
          some (if stringifiedCell row column = cat then Value.num 1
            else Value.num 0)))))
      column)
  (outData, newColumns)

/-- Decoding a one-hot row: the sum of its indicator cells. -/
def indicatorSum (cols : List String) (r : Row) : ℚ :=
  (cols.map (fun c =>
    match lookupVal r c with
    | some (.num q) => q
    | _ => 0)).sum

theorem colName_inj (column : String) :
    Function.Injective (fun cat => column ++ "_" ++ cat) := by
  intro a b h
  simp only at h
  have hd := congrArg String.data h
  rw [String.data_append, String.data_append, String.data_append,
    String.data_append] at hd
  have h2 : a.data = b.data := by
    simpa using hd
  cases a with
  | mk da =>
      cases b with
      | mk db =>
          have : da = db := by simpa using h2
          rw [this]

theorem colName_ne_column (column cat : String) :
    column ++ "_" ++ cat ≠ column := by
  intro h
  have := congrArg String.length h
  rw [String.length_append, String.length_append] at this
  have h1 : ("_" : String).length = 1 := rfl
  omega

theorem sum_indicator_of_nodup (value : String) (cats : List String)
    (hnd : cats.Nodup) :
    ((cats.map (fun cat => if value = cat then (1 : ℚ) else 0)).sum) =
      if value ∈ cats then 1 else 0 := by
  induction cats with
  | nil => simp
  | cons c tl ih =>
      simp only [List.nodup_cons] at hnd
      rw [List.map_cons, List.sum_cons, ih hnd.2]
      by_cases hvc : value = c
      · subst hvc
        rw [if_pos rfl, if_neg hnd.1, if_pos (List.mem_cons_self _ _)]
        norm_num
      · rw [if_neg hvc]
        by_cases hvtl : value ∈ tl
        · rw [if_pos hvtl, if_pos (List.mem_cons_of_mem _ hvtl)]
          norm_num
        · rw [if_neg hvtl, if_neg (by simp [hvc, hvtl])]
          norm_num

theorem onehot_row_sum (column : String) (valuesToEncode : List String)
    (r : Row) (hnd : valuesToEncode.Nodup) (value : String) :
    indicatorSum (valuesToEncode.map (fun cat => column ++ "_" ++ cat))
      (removeKey
        (writeCells r (valuesToEncode.map (fun cat =>
          (column ++ "_" ++ cat,
            some (if value = cat then Value.num 1 else Value.num 0)))))
        column) =
      if value ∈ valuesToEncode then 1 else 0 := by
  have hkeys :
      ((valuesToEncode.map (fun cat =>
        (column ++ "_" ++ cat,
          some (if value = cat then Value.num 1 else Value.num 0)))).map
        Prod.fst).Nodup := by
    rw [List.map_map]
    exact (hnd.map (colName_inj column))
  unfold indicatorSum
  rw [List.map_map]
  refine Eq.trans (congrArg List.sum (List.map_congr_left ?_))
    (sum_indicator_of_nodup value valuesToEncode hnd)
  · intro cat hcat
    have hmem : (column ++ "_" ++ cat,
        some (if value = cat then Value.num 1 else Value.num 0)) ∈
          valuesToEncode.map (fun cat =>
            (column ++ "_" ++ cat,
              some (if value = cat then Value.num 1 else Value.num 0))) :=
      List.mem_map_of_mem _ hcat
    have hlook :
        lookupVal
          (removeKey
            (writeCells r (valuesToEncode.map (fun cat =>
              (column ++ "_" ++ cat,
                some (if value = cat then Value.num 1 else Value.num 0)))))
            column)
          (column ++ "_" ++ cat) =
          some (if value = cat then Value.num 1 else Value.num 0) := by
      rw [lookupVal_removeKey_ne _ _ _ (colName_ne_column column cat)]
      exact lookupVal_writeCells_mem_some _ _ _ _ hkeys hmem
    simp only [Function.comp]
    rw [hlook]
    by_cases hvc : value = cat
    · rw [if_pos hvc, if_pos hvc]
    · rw [if_neg hvc, if_neg hvc]

theorem oneHotEncode_fst (data : List Row) (column : String) :
    (oneHotEncode data column false).1 =
      data.map (fun row =>
        removeKey
          (writeCells row ((oneHotCategories data column).map (fun cat =>
            (column ++ "_" ++ cat,
              some (if stringifiedCell row column = cat then Value.num 1
                else Value.num 0)))))
          column) := rfl

theorem oneHotEncode_snd (data : List Row) (column : String) :
    (oneHotEncode data column false).2 =
      (oneHotCategories data column).map (fun v => column ++ "_" ++ v) := rfl

/-- C6 counterexample. On the single-row table `[{c: ""}]` the cell is
missing in the claim's sense (empty string), yet `oneHotEncode` creates the
indicator column `c_` for the empty-string category and sets it to 1, so
the row's indicator sum is 1, not the claim's 0 — and a column exists for a
missing value. -/
theorem onehot_missing_counterexample :
    isMissingCell (lookupVal [("c", Value.str "")] "c") = true ∧
      (oneHotEncode [[("c", Value.str "")]] "c" false).2 = ["c_"] ∧
      indicatorSum (oneHotEncode [[("c", Value.str "")]] "c" false).2
        ((oneHotEncode [[("c", Value.str "")]] "c" false).1.headI) = 1 := by
  with_unfolding_all decide

/-- C6 amended. Without drop-first, and provided the distinct non-null
values of the column stringify injectively (no cross-type collision),
one-hot encoding creates one indicator column per distinct non-null value
(the empty string included); each row with a non-null value has indicator
sum exactly 1, and a row whose value is null or absent has indicator sum 1
when the empty string is among the encoded categories (the row is conflated
with the empty-string category) and 0 otherwise. -/
theorem onehot_indicator_sums (data : List Row) (column : String)
    (hnd : ((jsSet (rawColumnValues data column)).map jsString).Nodup) :
    (oneHotEncode data column false).2.length =
        (jsSet (rawColumnValues data column)).length ∧
      (∀ (i : ℕ) (v : Value), cellAt data i column = some v →
        v ≠ Value.null →
        indicatorSum (oneHotEncode data column false).2
          (((oneHotEncode data column false).1.get? i).getD []) = 1) ∧
      (∀ i : ℕ, i < data.length →
        (cellAt data i column = none ∨ cellAt data i column = some Value.null) →
        indicatorSum (oneHotEncode data column false).2
          (((oneHotEncode data column false).1.get? i).getD []) =
          (if "" ∈ oneHotCategories data column then 1 else 0)) := by
  have hcats_nd : (oneHotCategories data column).Nodup :=
    (sortStr_perm _).nodup_iff.mpr hnd
  have hrowAt : ∀ (i : ℕ) (r : Row), data.get? i = some r →
      ((oneHotEncode data column false).1.get? i).getD [] =
        removeKey
          (writeCells r ((oneHotCategories data column).map (fun cat =>
            (column ++ "_" ++ cat,
              some (if stringifiedCell r column = cat then Value.num 1
                else Value.num 0)))))
          column := by
    intro i r hir
    rw [oneHotEncode_fst, List.get?_eq_getElem?, List.getElem?_map]
    rw [List.get?_eq_getElem?] at hir
    rw [hir]
    rfl
  have hsum : ∀ (i : ℕ) (r : Row), data.get? i = some r →
      indicatorSum (oneHotEncode data column false).2
        (((oneHotEncode data column false).1.get? i).getD []) =
        if stringifiedCell r column ∈ oneHotCategories data column then 1
        else 0 := by
    intro i r hir
    rw [hrowAt i r hir, oneHotEncode_snd]
    exact onehot_row_sum column (oneHotCategories data column) r hcats_nd
      (stringifiedCell r column)
  refine ⟨?_, ?_, ?_⟩
  · rw [oneHotEncode_snd, List.length_map, oneHotCategories,
      (sortStr_perm _).length_eq, List.length_map]
  · intro i v hv hvnull
    obtain ⟨r, hir, hlook⟩ : ∃ r, data.get? i = some r ∧
        lookupVal r column = some v := by
      unfold cellAt at hv
      cases hir : data.get? i with
      | none => rw [hir] at hv; exact absurd hv (by simp)
      | some r => rw [hir] at hv; exact ⟨r, rfl, hv⟩
    rw [hsum i r hir]
    have hval : stringifiedCell r column = jsString v := by
      unfold stringifiedCell
      rw [hlook]
      cases v with
      | null => exact absurd rfl hvnull
      | str s => rfl
      | num q => rfl
      | boolean b => rfl
    have hmemvals : v ∈ rawColumnValues data column := by
      refine List.mem_filterMap.mpr ⟨r, List.get?_mem hir, ?_⟩
      rw [hlook]
      cases v with
      | null => exact absurd rfl hvnull
      | str s => rfl
      | num q => rfl
      | boolean b => rfl
    have hmemcats : jsString v ∈ oneHotCategories data column := by
      unfold oneHotCategories
      rw [(sortStr_perm _).mem_iff]
      exact List.mem_map_of_mem jsString ((mem_jsSet _ _).mpr hmemvals)
    rw [hval, if_pos hmemcats]
  · intro i hi hmiss
    obtain ⟨r, hir⟩ : ∃ r, data.get? i = some r := by
      cases hir : data.get? i with
      | none =>
          rw [List.get?_eq_getElem?] at hir
          rw [List.getElem?_eq_none_iff] at hir
          omega
      | some r => exact ⟨r, rfl⟩
    have hmiss2 : lookupVal r column = none ∨
        lookupVal r column = some Value.null := by
      unfold cellAt at hmiss
      rw [hir] at hmiss
      exact hmiss
    have hval : stringifiedCell r column = "" := by
      unfold stringifiedCell
      rcases hmiss2 with h | h <;> rw [h]
    rw [hsum i r hir, hval]

/-- Concrete table for the C6 witness: column `[red, blue, null]`. -/
def oneHotWitnessData : List Row :=
  [[("color", Value.str "red")], [("color", Value.str "blue")],
    [("color", Value.null)]]

/-- C6 witness: on `[red, blue, null]` the encoded row of `red` has
indicator sum 1 and the null row has indicator sum 0. -/
theorem onehot_indicator_sums_witness :
    indicatorSum (oneHotEncode oneHotWitnessData "color" false).2
        (((oneHotEncode oneHotWitnessData "color" false).1.get? 0).getD []) =
        1 ∧
      indicatorSum (oneHotEncode oneHotWitnessData "color" false).2
        (((oneHotEncode oneHotWitnessData "color" false).1.get? 2).getD []) =
        0 := by
  have h := onehot_indicator_sums oneHotWitnessData "color"
    (by with_unfolding_all decide)
  constructor
  · exact h.2.1 0 (Value.str "red") (by with_unfolding_all decide) (by decide)
  · have h3 := h.2.2 2 (by decide) (Or.inr (by with_unfolding_all decide))
    rw [h3, if_neg (by with_unfolding_all decide)]

inductive ScalerMethod where
  | standard
  | minmax
  | robust
deriving DecidableEq, Repr

/-- Per-column scaler parameters (`ScalerConfig.params[col]` of the TS
sources, whose fields are all optional). -/
structure ScalerColParams where
  mean : Option ℚ := none
  std : Option ℚ := none
  min : Option ℚ := none
  max : Option ℚ := none
deriving DecidableEq, Repr

structure ScalerConfig where
  method : ScalerMethod
  columns : List String
  params : List (String × ScalerColParams)
deriving DecidableEq, Repr

/-- JS record assignment `ps[k] = v` (first-assignment key order kept). -/
def setEntry {α : Type _} : List (String × α) → String → α → List (String × α)
  | [], k, v => [(k, v)]
  | (k', v') :: tl, k, v =>
      if k' = k then (k, v) :: tl else (k', v') :: setEntry tl k v

theorem setEntry_entries {α : Type _} (l : List (String × α)) (k : String)
    (v : α) (k' : String) (v' : α)
    (hmem : (k', v') ∈ setEntry l k v) :
    (k', v') ∈ l ∨ (k' = k ∧ v' = v) := by
  induction l with
  | nil =>
      simp only [setEntry, List.mem_singleton] at hmem
      exact Or.inr ⟨congrArg Prod.fst hmem, congrArg Prod.snd hmem⟩
  | cons hd tl ih =>
      obtain ⟨k₀, v₀⟩ := hd
      simp only [setEntry] at hmem
      by_cases h0 : k₀ = k
      · rw [if_pos h0] at hmem
        rcases List.mem_cons.mp hmem with h | h
        · exact Or.inr ⟨congrArg Prod.fst h, congrArg Prod.snd h⟩
        · exact Or.inl (List.mem_cons_of_mem _ h)
      · rw [if_neg h0] at hmem
        rcases List.mem_cons.mp hmem with h | h
        · exact Or.inl (List.mem_cons.mpr (Or.inl h))
        · rcases ih h with h1 | h1
          · exact Or.inl (List.mem_cons_of_mem _ h1)
          · exact Or.inr h1

theorem setEntry_keys {α : Type _} (l : List (String × α)) (k : String)
    (v : α) (hnd : (l.map Prod.fst).Nodup) :
    ((setEntry l k v).map Prod.fst).Nodup := by
  induction l with
  | nil => simp [setEntry]
  | cons hd tl ih =>
      obtain ⟨k₀, v₀⟩ := hd
      simp only [List.map_cons, List.nodup_cons] at hnd
      simp only [setEntry]
      by_cases h0 : k₀ = k
      · rw [if_pos h0]
        subst h0
        simpa using hnd
      · rw [if_neg h0]
        simp only [List.map_cons, List.nodup_cons]
        refine ⟨fun hk => ?_, ih hnd.2⟩
        obtain ⟨⟨k₁, v₁⟩, hmem, heq⟩ := List.mem_map.mp hk
        simp only at heq
        subst heq
        rcases setEntry_entries tl k v _ _ hmem with h | h
        · exact hnd.1 (List.mem_map_of_mem Prod.fst h)
        · exact h0 h.1

theorem lookup_of_mem_nodup {α : Type _} (l : List (String × α)) (k : String)
    (v : α) (hnd : (l.map Prod.fst).Nodup) (hmem : (k, v) ∈ l) :
    List.lookup k l = some v := by
  induction l with
  | nil => simp at hmem
  | cons hd tl ih =>
      obtain ⟨k₀, v₀⟩ := hd
      simp only [List.map_cons, List.nodup_cons] at hnd
      rcases List.mem_cons.mp hmem with h | h
      · have h1 : k₀ = k := (congrArg Prod.fst h).symm
        have h2 : v₀ = v := (congrArg Prod.snd h).symm
        subst h1; subst h2
        simp [List.lookup]
      · have hk0 : k₀ ≠ k := by
          intro hk
          subst hk
          exact hnd.1 (List.mem_map_of_mem Prod.fst h)
        have hb : (k == k₀) = false := by simp [Ne.symm hk0]
        simp only [List.lookup, hb]
        exact ih hnd.2 h

/-- The numeric cells of a column (`typeof row[col] === 'number'`). -/
def numericCells (data : List Row) (col : String) : List ℚ :=
  data.filterMap (fun r =>
    match lookupVal r col with
    | some (.num q) => some q
    | _ => none)

/-- JS `Math.min(...values)` on a nonempty list (junk 0 on empty; the
scalers only call it after a nonemptiness check). -/
def listMin : List ℚ → ℚ
  | [] => 0
  | x :: tl => tl.foldl min x

def listMax : List ℚ → ℚ
  | [] => 0
  | x :: tl => tl.foldl max x

theorem foldl_min_le_init (tl : List ℚ) (a : ℚ) : tl.foldl min a ≤ a := by
  induction tl generalizing a with
  | nil => exact le_refl _
  | cons b tl2 ih =>
      exact le_trans (ih (min a b)) (min_le_left _ _)

theorem foldl_min_le_mem (tl : List ℚ) (a y : ℚ) (hy : y ∈ tl) :
    tl.foldl min a ≤ y := by
  induction tl generalizing a with
  | nil => simp at hy
  | cons b tl2 ih =>
      rcases List.mem_cons.mp hy with rfl | hy
      · exact le_trans (foldl_min_le_init tl2 (min a y)) (min_le_right _ _)
      · exact ih _ hy

theorem le_foldl_max_init (tl : List ℚ) (a : ℚ) : a ≤ tl.foldl max a := by
  induction tl generalizing a with
  | nil => exact le_refl _
  | cons b tl2 ih =>
      exact le_trans (le_max_left _ _) (ih (max a b))

theorem le_foldl_max_mem (tl : List ℚ) (a y : ℚ) (hy : y ∈ tl) :
    y ≤ tl.foldl max a := by
  induction tl generalizing a with
  | nil => simp at hy
  | cons b tl2 ih =>
      rcases List.mem_cons.mp hy with rfl | hy
      · exact le_trans (le_max_right _ _) (le_foldl_max_init tl2 (max a y))
      · exact ih _ hy

theorem listMin_le_of_mem (l : List ℚ) (y : ℚ) (hy : y ∈ l) :
    listMin l ≤ y := by
  cases l with
  | nil => simp at hy
  | cons x tl =>
      rcases List.mem_cons.mp hy with rfl | hy
      · exact foldl_min_le_init tl y
      · exact foldl_min_le_mem tl x y hy

theorem le_listMax_of_mem (l : List ℚ) (y : ℚ) (hy : y ∈ l) :
    y ≤ listMax l := by
  cases l with
  | nil => simp at hy
  | cons x tl =>
      rcases List.mem_cons.mp hy with rfl | hy
      · exact le_foldl_max_init tl y
      · exact le_foldl_max_mem tl x y hy

/-- The per-column parameters `standardScale` stores: mean and standard
deviation, the latter replaced by 1 when zero (`std || 1`);
`none` when the column has no numeric cell. -/
def stdParamsFor (data : List Row) (col : String) : Option ScalerColParams :=
  let values := numericCells data col
  if values.length = 0 then none
  else
    let mean := values.sum / (values.length : ℚ)
    let std := Rat.sqrt
      ((values.map (fun v => (v - mean) ^ 2)).sum / (values.length : ℚ))
    some { mean := some mean, std := some (if std = 0 then 1 else std) }

/-- The per-column parameters `minMaxScale` stores. -/
def minMaxParamsFor (data : List Row) (col : String) : Option ScalerColParams :=
  let values := numericCells data col
  if values.length = 0 then none
  else some { min := some (listMin values), max := some (listMax values) }

/-- The params record built per column over `columnsToScale`. -/
def buildParams (paramFor : String → Option ScalerColParams)
    (cols : List String) : List (String × ScalerColParams) :=
  cols.foldl (fun ps col =>
    match paramFor col with
    | none => ps
    | some p => setEntry ps col p) []

/-- The per-cell forward transform of `standardScale`: numbers are
z-scored, missing cells become `null`, anything else is left untouched.
The params always carry both fields, so the fallthrough is unreachable. -/
def stdScaleCell (p : ScalerColParams) (v : Option Value) : Option Value :=
  match v, p.mean, p.std with
  | some (.num x), some m, some s => some (.num ((x - m) / s))
  | some (.num _), _, _ => none
  | w, _, _ => if isMissingCell w then some Value.null else none

/-- The per-cell forward transform of `minMaxScale` into
`[rmin, rmax]` (`max - min || 1` guards the zero range). -/
def minMaxScaleCell (rmin rmax : ℚ) (p : ScalerColParams)
    (v : Option Value) : Option Value :=
  match v, p.min, p.max with
  | some (.num x), some mn, some mx =>
      some (.num ((x - mn) / (if mx - mn = 0 then 1 else mx - mn) *
        (rmax - rmin) + rmin))
  | some (.num _), _, _ => none
  | w, _, _ => if isMissingCell w then some Value.null else none

/-- Standard scaling from the scalers module (`standardScale`). -/
def standardScale (data : List Row) (cols : List String)
    (excludeCols : List String) :
    List Row × ScalerConfig × LogEntry :=
  let columnsToScale := cols.filter (fun c => ¬ excludeCols.contains c)
  let params := buildParams (stdParamsFor data) columnsToScale
  let resultData := data.map (fun row =>
    writeCells row (params.map (fun cp =>
      (cp.1, stdScaleCell cp.2 (lookupVal row cp.1)))))
  (resultData,
    { method := .standard, columns := params.map Prod.fst, params := params },
    { operation := "Standard Scaling", rowsAffected := data.length,
      category := "transformation" })

/-- Min-max scaling (`minMaxScale`); the feature range defaults to
`[0, 1]` at the call sites. -/
def minMaxScale (data : List Row) (cols : List String)
    (excludeCols : List String) (rmin rmax : ℚ) :
    List Row × ScalerConfig × LogEntry :=
  let columnsToScale := cols.filter (fun c => ¬ excludeCols.contains c)
  let params := buildParams (minMaxParamsFor data) columnsToScale
  let resultData := data.map (fun row =>
    writeCells row (params.map (fun cp =>
      (cp.1, minMaxScaleCell rmin rmax cp.2 (lookupVal row cp.1)))))
  (resultData,
    { method := .minmax, columns := params.map Prod.fst, params := params },
    { operation := "Min-Max Scaling", rowsAffected := data.length,
      category := "transformation" })

/-- The per-cell inverse transform of `inverseScale` (non-numeric cells and
columns without params are skipped). -/
def invScaleCell (method : ScalerMethod) (p : ScalerColParams)
    (v : Option Value) : Option Value :=
  match v with
  | some (.num x) =>
      match method with
      | .standard =>
          match p.mean, p.std with
          | some m, some s => some (.num (x * s + m))
          | _, _ => none
      | .minmax =>
          match p.min, p.max with
          | some mn, some mx => some (.num (x * (mx - mn) + mn))
          | _, _ => none
      | .robust =>
          match p.mean, p.std with
          | some m, some s => some (.num (x * s + m))
          | _, _ => none
  | _ => none

/-- Inverse transform from the scalers module (`inverseScale`). -/
def inverseScale (data : List Row) (scaler : ScalerConfig) : List Row :=
  data.map (fun row =>
    writeCells row (scaler.columns.map (fun c =>
      (c,
        match scaler.params.lookup c with
        | none => none
        | some p => invScaleCell scaler.method p (lookupVal row c)))))

theorem buildParams_spec (paramFor : String → Option ScalerColParams)
    (cols : List String) :
    ((buildParams paramFor cols).map Prod.fst).Nodup ∧
      ∀ cp ∈ buildParams paramFor cols, paramFor cp.1 = some cp.2 := by
  unfold buildParams
  suffices h : ∀ ps : List (String × ScalerColParams),
      (ps.map Prod.fst).Nodup → (∀ cp ∈ ps, paramFor cp.1 = some cp.2) →
      (((cols.foldl (fun ps col =>
        match paramFor col with
        | none => ps
        | some p => setEntry ps col p) ps).map Prod.fst).Nodup ∧
        ∀ cp ∈ cols.foldl (fun ps col =>
          match paramFor col with
          | none => ps
          | some p => setEntry ps col p) ps, paramFor cp.1 = some cp.2) by
    exact h [] (by simp) (by simp)
  induction cols with
  | nil => exact fun ps hnd hsp => ⟨hnd, hsp⟩
  | cons c' tl ih =>
      intro ps hnd hsp
      simp only [List.foldl_cons]
      cases hp : paramFor c' with
      | none => exact ih ps hnd hsp
      | some p =>
          refine ih _ (setEntry_keys ps c' p hnd) ?_
          intro cp hcp
          rcases setEntry_entries ps c' p cp.1 cp.2 (by simpa using hcp)
            with h1 | h1
          · exact hsp _ h1
          · rw [h1.1, h1.2]
            exact hp

/-- The round trip on a single row, for any forward per-cell transform
whose effect on the scaled columns is inverted by `invScaleCell`. -/
theorem roundtrip_row (method : ScalerMethod)
    (cellF : ScalerColParams → Option Value → Option Value)
    (params : List (String × ScalerColParams))
    (hnd : (params.map Prod.fst).Nodup)
    (r : Row) (c : String) (x : ℚ)
    (hr : lookupVal r c = some (.num x))
    (halg : ∀ p, (c, p) ∈ params →
      ∃ y : ℚ, cellF p (some (.num x)) = some (.num y) ∧
        invScaleCell method p (some (.num y)) = some (.num x)) :
    lookupVal
      (writeCells
        (writeCells r (params.map (fun cp =>
          (cp.1, cellF cp.2 (lookupVal r cp.1)))))
        ((params.map Prod.fst).map (fun c' =>
          (c',
            match List.lookup c' params with
            | none => none
            | some p =>
                invScaleCell method p
                  (lookupVal
                    (writeCells r (params.map (fun cp =>
                      (cp.1, cellF cp.2 (lookupVal r cp.1))))) c')))))
      c = some (.num x) := by
  have hkeys_f : ((params.map (fun cp =>
      (cp.1, cellF cp.2 (lookupVal r cp.1)))).map Prod.fst).Nodup := by
    rw [List.map_map]
    simpa using hnd
  have hkeys_i : (((params.map Prod.fst).map (fun c' =>
      (c',
        match List.lookup c' params with
        | none => none
        | some p =>
            invScaleCell method p
              (lookupVal
                (writeCells r (params.map
                  (fun cp : String × ScalerColParams =>
                    (cp.1, cellF cp.2 (lookupVal r cp.1))))) c')))).map
        Prod.fst).Nodup := by
    rw [List.map_map]
    simpa using hnd
  by_cases hc : c ∈ params.map Prod.fst
  · obtain ⟨p, hmem₀⟩ : ∃ p, (c, p) ∈ params := by
      obtain ⟨⟨c₁, p⟩, hmem₁, heq₁⟩ := List.mem_map.mp hc
      simp only at heq₁
      exact ⟨p, heq₁ ▸ hmem₁⟩
    obtain ⟨y, hy1, hy2⟩ := halg p hmem₀
    have hfwd : lookupVal
        (writeCells r (params.map (fun cp =>
          (cp.1, cellF cp.2 (lookupVal r cp.1))))) c = some (.num y) := by
      apply lookupVal_writeCells_mem_some _ _ _ _ hkeys_f
      have hmm := List.mem_map_of_mem
        (fun cp : String × ScalerColParams =>
          (cp.1, cellF cp.2 (lookupVal r cp.1))) hmem₀
      simp only [hr, hy1] at hmm
      exact hmm
    apply lookupVal_writeCells_mem_some _ _ _ _ hkeys_i
    have hlook : List.lookup c params = some p :=
      lookup_of_mem_nodup params c p hnd hmem₀
    have hmm := List.mem_map_of_mem
      (fun c' =>
        (c',
          match List.lookup c' params with
          | none => none
          | some p =>
              invScaleCell method p
                (lookupVal
                  (writeCells r (params.map
                    (fun cp : String × ScalerColParams =>
                      (cp.1, cellF cp.2 (lookupVal r cp.1))))) c'))) hc
    simp only [hlook, hfwd, hy2] at hmm
    exact hmm
  · have hfwd : lookupVal
        (writeCells r (params.map (fun cp =>
          (cp.1, cellF cp.2 (lookupVal r cp.1))))) c = lookupVal r c := by
      apply lookupVal_writeCells_not_mem
      rw [List.map_map]
      simpa using hc
    rw [lookupVal_writeCells_not_mem, hfwd, hr]
    rw [List.map_map]
    simpa using hc

theorem std_alg (data : List Row) (c : String) (p : ScalerColParams) (x : ℚ)
    (hp : stdParamsFor data c = some p) :
    ∃ y : ℚ, stdScaleCell p (some (.num x)) = some (.num y) ∧
      invScaleCell .standard p (some (.num y)) = some (.num x) := by
  unfold stdParamsFor at hp
  by_cases hz : (numericCells data c).length = 0
  · rw [if_pos hz] at hp
    simp at hp
  · rw [if_neg hz] at hp
    simp only [Option.some.injEq] at hp
    set vals := numericCells data c
    set M := vals.sum / (vals.length : ℚ) with hM
    set S0 := Rat.sqrt ((vals.map (fun v => (v - M) ^ 2)).sum /
      (vals.length : ℚ)) with hS0
    have hpm : p.mean = some M := by rw [← hp]
    have hps : p.std = some (if S0 = 0 then 1 else S0) := by rw [← hp]
    have hSnz : (if S0 = 0 then 1 else S0) ≠ 0 := by
      by_cases h0 : S0 = 0
      · rw [if_pos h0]; norm_num
      · rw [if_neg h0]; exact h0
    refine ⟨(x - M) / (if S0 = 0 then 1 else S0), ?_, ?_⟩
    · unfold stdScaleCell
      rw [hpm, hps]
    · unfold invScaleCell
      rw [hpm, hps]
      simp only [Option.some.injEq, Value.num.injEq]
      rw [div_mul_cancel₀ _ hSnz]
      ring

theorem minmax_alg (data : List Row) (c : String) (p : ScalerColParams)
    (x : ℚ) (hp : minMaxParamsFor data c = some p)
    (hx : x ∈ numericCells data c) :
    ∃ y : ℚ, minMaxScaleCell 0 1 p (some (.num x)) = some (.num y) ∧
      invScaleCell .minmax p (some (.num y)) = some (.num x) := by
  unfold minMaxParamsFor at hp
  by_cases hz : (numericCells data c).length = 0
  · rw [if_pos hz] at hp
    simp at hp
  · rw [if_neg hz] at hp
    simp only [Option.some.injEq] at hp
    set vals := numericCells data c
    have hpmin : p.min = some (listMin vals) := by rw [← hp]
    have hpmax : p.max = some (listMax vals) := by rw [← hp]
    set mn := listMin vals
    set mx := listMax vals
    refine ⟨(x - mn) / (if mx - mn = 0 then 1 else mx - mn) * (1 - 0) + 0,
      ?_, ?_⟩
    · unfold minMaxScaleCell
      rw [hpmin, hpmax]
    · unfold invScaleCell
      rw [hpmin, hpmax]
      simp only [Option.some.injEq, Value.num.injEq]
      by_cases h0 : mx - mn = 0
      · have hxmn : x = mn := by
          have h1 : mn ≤ x := listMin_le_of_mem vals x hx
          have h2 : x ≤ mx := le_listMax_of_mem vals x hx
          have : mx = mn := by linarith
          linarith [this ▸ h2]
        rw [h0]
        rw [hxmn]
        ring
      · rw [if_neg h0]
        field_simp

theorem cellAt_two_maps (f g : Row → Row) (data : List Row) (i : ℕ)
    (c : String) (r : Row) (hir : data.get? i = some r) :
    cellAt ((data.map f).map g) i c = lookupVal (g (f r)) c := by
  unfold cellAt
  rw [List.get?_eq_getElem?, List.getElem?_map, List.getElem?_map,
    ← List.get?_eq_getElem?, hir]
  rfl

/-- C7. For the standard and min-max (default range `[0, 1]`) methods,
`inverseScale` applied with the scaler configuration returned by the
forward scaling recovers every numeric input cell exactly — including the
degenerate zero-deviation and zero-range columns, where the stored `std`
(resp. the `max - min || 1` guard) substitutes 1. -/
theorem scaling_roundtrip (data : List Row) (cols excl : List String)
    (i : ℕ) (c : String) (x : ℚ)
    (hx : cellAt data i c = some (.num x)) :
    cellAt (inverseScale (standardScale data cols excl).1
        (standardScale data cols excl).2.1) i c = some (.num x) ∧
      cellAt (inverseScale (minMaxScale data cols excl 0 1).1
        (minMaxScale data cols excl 0 1).2.1) i c = some (.num x) := by
  obtain ⟨r, hir, hlr⟩ : ∃ r, data.get? i = some r ∧
      lookupVal r c = some (.num x) := by
    unfold cellAt at hx
    cases hir : data.get? i with
    | none => rw [hir] at hx; exact absurd hx (by simp)
    | some r => rw [hir] at hx; exact ⟨r, rfl, hx⟩
  have hrmem : r ∈ data := List.get?_mem hir
  have hxmem : x ∈ numericCells data c := by
    refine List.mem_filterMap.mpr ⟨r, hrmem, ?_⟩
    rw [hlr]
  constructor
  · obtain ⟨hndP, hspecP⟩ := buildParams_spec (stdParamsFor data)
      (cols.filter (fun c => ¬ excl.contains c))
    have hrow := roundtrip_row .standard stdScaleCell _ hndP r c x hlr
      (fun p hmem => std_alg data c p x (hspecP (c, p) hmem))
    exact Eq.trans (cellAt_two_maps _ _ data i c r hir) hrow
  · obtain ⟨hndP, hspecP⟩ := buildParams_spec (minMaxParamsFor data)
      (cols.filter (fun c => ¬ excl.contains c))
    have hrow := roundtrip_row .minmax (minMaxScaleCell 0 1) _ hndP r c x hlr
      (fun p hmem => minmax_alg data c p x (hspecP (c, p) hmem) hxmem)
    exact Eq.trans (cellAt_two_maps _ _ data i c r hir) hrow

/-- Concrete column `[0, 5, 10]` of the spec's scenario 5. -/
def scalingWitnessData : List Row :=
  [[("v", Value.num 0)], [("v", Value.num 5)], [("v", Value.num 10)]]

/-- C7 witness: on the column `[0, 5, 10]`, min-max scaling sends 5 to 0.5
and both inverse transforms recover the original 5. -/
theorem scaling_roundtrip_witness :
    cellAt scalingWitnessData 1 "v" = some (.num 5) ∧
      cellAt (inverseScale (standardScale scalingWitnessData ["v"] []).1
        (standardScale scalingWitnessData ["v"] []).2.1) 1 "v" =
        some (.num 5) ∧
      cellAt (inverseScale (minMaxScale scalingWitnessData ["v"] [] 0 1).1
        (minMaxScale scalingWitnessData ["v"] [] 0 1).2.1) 1 "v" =
        some (.num 5) ∧
      cellAt (minMaxScale scalingWitnessData ["v"] [] 0 1).1 1 "v" =
        some (.num (1 / 2)) := by
  refine ⟨by with_unfolding_all decide, ?_, ?_, by with_unfolding_all decide⟩
  · exact (scaling_roundtrip scalingWitnessData ["v"] [] 1 "v" 5
      (by with_unfolding_all decide)).1
  · exact (scaling_roundtrip scalingWitnessData ["v"] [] 1 "v" 5
      (by with_unfolding_all decide)).2

/-- JS `Object.keys(row)`. -/
def rowKeys (r : Row) : List String := r.map Prod.fst

/-- Count of rows whose cell at `col` is null, undefined or empty. -/
def nullCountIn (data : List Row) (col : String) : ℕ :=
  (data.filter (fun r => isMissingCell (lookupVal r col))).length

/-- The null fraction `nullCount / data.length` of one column. -/
def nullFraction (data : List Row) (col : String) : ℚ :=
  (nullCountIn data col : ℚ) / (data.length : ℚ)

/-- Removal of (mostly) all-null columns from `dataCleaner.ts`
(`removeAllNullColumns`).  The candidate set is `Object.keys(data[0])`;
a kept column that is absent from a row stays absent in the rebuilt row
(the JS code stores an explicit `undefined` there, which is observationally
the same for every lookup). -/
def removeAllNullColumns (data : List Row) (threshold : ℚ) :
    List Row × List String × List LogEntry :=
  match data with
  | [] => ([], [], [])
  | first :: rest =>
      let data := first :: rest
      let allColumns := rowKeys first
      let columnsToRemove := allColumns.filter (fun col =>
        decide (threshold ≤ nullFraction data col))
      let columnsToKeep := allColumns.filter (fun col =>
        ¬ decide (threshold ≤ nullFraction data col))
      if columnsToRemove.length = 0 then (data, allColumns, [])
      else
        let resultData := data.map (fun r =>
          columnsToKeep.filterMap (fun col =>
            (lookupVal r col).map (fun v => (col, v))))
        (resultData, columnsToKeep,
          [{ operation := "Remove All-Null Columns",
             rowsAffected := data.length,
             category := "cleaning" }])

/-- C10. `removeAllNullColumns` draws its candidate columns from the keys
of the first row only: an empty table yields an empty column list; a column
absent from the first row is never a candidate, never appears in the
returned column list, and is dropped from every rebuilt row whenever at
least one column is removed (equivalently, whenever the removal log entry
is emitted); and when no candidate column reaches the threshold the input
row list is returned unchanged. -/
theorem removeAllNull_first_row_only :
    (∀ t : ℚ, removeAllNullColumns [] t = ([], [], [])) ∧
      (∀ (first : Row) (rest : List Row) (t : ℚ) (c : String),
        c ∉ rowKeys first →
        c ∉ (removeAllNullColumns (first :: rest) t).2.1 ∧
          ((removeAllNullColumns (first :: rest) t).2.2 ≠ [] →
            ∀ r ∈ (removeAllNullColumns (first :: rest) t).1,
              lookupVal r c = none)) ∧
      (∀ (data : List Row) (t : ℚ),
        (removeAllNullColumns data t).2.2 = [] →
        (removeAllNullColumns data t).1 = data) := by
  refine ⟨fun t => rfl, ?_, ?_⟩
  · intro first rest t c hc
    unfold removeAllNullColumns
    dsimp only
    by_cases hrem : ((rowKeys first).filter (fun col =>
        decide (t ≤ nullFraction (first :: rest) col))).length = 0
    · rw [if_pos hrem]
      refine ⟨hc, ?_⟩
      intro hlog
      exact absurd rfl hlog
    · rw [if_neg hrem]
      constructor
      · intro hmem
        exact hc (List.mem_of_mem_filter hmem)
      · intro _ r hr
        obtain ⟨r₀, _, rfl⟩ := List.mem_map.mp hr
        apply lookup_eq_none_of_not_mem_keys
        intro hkey
        obtain ⟨⟨c₁, v₁⟩, hmem₁, heq₁⟩ := List.mem_map.mp hkey
        simp only at heq₁
        obtain ⟨col, hcol, hsome⟩ := List.mem_filterMap.mp hmem₁
        have hcc : col = c := by
          cases hl : lookupVal r₀ col with
          | none => rw [hl] at hsome; simp at hsome
          | some v =>
              rw [hl] at hsome
              have h2 : (col, v) = (c₁, v₁) := by simpa using hsome
              rw [← heq₁]
              exact congrArg Prod.fst h2
        exact hc (hcc ▸ List.mem_of_mem_filter hcol)
  · intro data t hlog
    cases data with
    | nil => rfl
    | cons first rest =>
        unfold removeAllNullColumns at hlog ⊢
        dsimp only at hlog ⊢
        by_cases hrem : ((rowKeys first).filter (fun col =>
            decide (t ≤ nullFraction (first :: rest) col))).length = 0
        · rw [if_pos hrem]
        · rw [if_neg hrem] at hlog
          simp at hlog

/-- Concrete table for the C10 witness: first row has only column `a`,
column `b` appears only in the second row. -/
def allNullWitnessData : List Row :=
  [[("a", Value.num 1)], [("a", Value.null), ("b", Value.num 2)]]

/-- C10 witness: at threshold 1/2 column `a` (half null) is removed, the
rebuilt rows lose the stray column `b` even though it held a value; at
threshold 1 nothing reaches the threshold and the data comes back
unchanged. -/
theorem removeAllNull_first_row_only_witness :
    ("b" ∉ (removeAllNullColumns allNullWitnessData (1 / 2)).2.1 ∧
        ∀ r ∈ (removeAllNullColumns allNullWitnessData (1 / 2)).1,
          lookupVal r "b" = none) ∧
      (removeAllNullColumns allNullWitnessData 1).1 = allNullWitnessData ∧
      (removeAllNullColumns allNullWitnessData (1 / 2)).1 = [[], []] := by
  refine ⟨?_, ?_, by with_unfolding_all decide⟩
  · obtain ⟨h1, h2⟩ := removeAllNull_first_row_only.2.1
      [("a", Value.num 1)] [[("a", Value.null), ("b", Value.num 2)]]
      (1 / 2) "b" (by decide)
    exact ⟨h1, h2 (by with_unfolding_all decide)⟩
  · exact removeAllNull_first_row_only.2.2 allNullWitnessData 1
      (by with_unfolding_all decide)

/-- The stages of `handleApplyPipeline` (`MLPipeline.tsx`), named. -/
inductive Stage where
  | trim
  | normalizeColumns
  | caseStd
  | exactDedupe
  | nearDedupe
  | dropHighMissing
  | missingHandling
  | dropLowVariance
  | outlierHandling
  | timeFeatures
  | rollingFeatures
  | lagFeatures
  | polynomialFeatures
  | binningFeatures
  | geoEncoding
  | categoricalEncoding
  | scalingTransform
  | scalingScale
  | baselineModel
  | nanCleanup
  | removeAllNull
deriving DecidableEq, Repr

inductive TransformKind where
  | none
  | log
  | sqrt
  | boxcox
deriving DecidableEq, Repr

structure CleaningConfig where
  removeDuplicates : Bool
  removeNearDuplicates : Bool
  handleMissing : Bool
  trimWhitespace : Bool
  standardizeCase : Bool
  normalizeColumnNames : Bool
  removeHighMissing : Bool
  removeLowVariance : Bool
deriving DecidableEq, Repr

structure OutlierCfg where
  enabled : Bool
deriving DecidableEq, Repr

structure FeatureCfg where
  timeFeatures : Bool
  timeColumn : String
  rollingFeatures : Bool
  rollingColumn : String
  lagFeatures : Bool
  lagColumn : String
  polynomialFeatures : Bool
  polynomialColumns : List String
  binning : Bool
  binColumn : String
deriving DecidableEq, Repr

structure GeoCfg where
  enabled : Bool
  latColumn : String
  lonColumn : String
deriving DecidableEq, Repr

structure EncodingCfg where
  enabled : Bool
  selectedColumns : List String
deriving DecidableEq, Repr

structure ScalingCfg where
  enabled : Bool
  selectedColumns : List String
  transform : TransformKind
deriving DecidableEq, Repr

structure ModelCfg where
  enabled : Bool
deriving DecidableEq, Repr

/-- The configuration fields `handleApplyPipeline` consults to decide which
stages run (string fields stand for the JS truthiness tests on column
names; parameters that only tune a stage, not whether it runs, are not
needed here). -/
structure PipelineConfig where
  cleaning : CleaningConfig
  outlier : OutlierCfg
  feature : FeatureCfg
  geo : GeoCfg
  encoding : EncodingCfg
  scaling : ScalingCfg
  model : ModelCfg
  targetColumn : String
deriving DecidableEq, Repr

/-- The stage sequence `handleApplyPipeline` executes, transcribed from the
if-chain of `MLPipeline.tsx` in source order: trim, then column-name
normalization, then the remaining stages; the final NaN cleanup and
all-null-column removal are unconditional. -/
def pipelineStages (cfg : PipelineConfig) : List Stage :=
  (if cfg.cleaning.trimWhitespace then [Stage.trim] else []) ++
  (if cfg.cleaning.normalizeColumnNames then [Stage.normalizeColumns] else []) ++
  (if cfg.cleaning.standardizeCase then [Stage.caseStd] else []) ++
  (if cfg.cleaning.removeDuplicates then [Stage.exactDedupe] else []) ++
  (if cfg.cleaning.removeNearDuplicates then [Stage.nearDedupe] else []) ++
  (if cfg.cleaning.removeHighMissing then [Stage.dropHighMissing] else []) ++
  (if cfg.cleaning.handleMissing then [Stage.missingHandling] else []) ++
  (if cfg.cleaning.removeLowVariance then [Stage.dropLowVariance] else []) ++
  (if cfg.outlier.enabled then [Stage.outlierHandling] else []) ++
  (if cfg.feature.timeFeatures && !cfg.feature.timeColumn.isEmpty then
    [Stage.timeFeatures] else []) ++
  (if cfg.feature.rollingFeatures && !cfg.feature.rollingColumn.isEmpty then
    [Stage.rollingFeatures] else []) ++
  (if cfg.feature.lagFeatures && !cfg.feature.lagColumn.isEmpty then
    [Stage.lagFeatures] else []) ++
  (if cfg.feature.polynomialFeatures &&
      !cfg.feature.polynomialColumns.isEmpty then
    [Stage.polynomialFeatures] else []) ++
  (if cfg.feature.binning && !cfg.feature.binColumn.isEmpty then
    [Stage.binningFeatures] else []) ++
  (if cfg.geo.enabled && !cfg.geo.latColumn.isEmpty &&
      !cfg.geo.lonColumn.isEmpty then
    [Stage.geoEncoding] else []) ++
  (if cfg.encoding.enabled && !cfg.encoding.selectedColumns.isEmpty then
    [Stage.categoricalEncoding] else []) ++
  (if cfg.scaling.enabled && !cfg.scaling.selectedColumns.isEmpty &&
      (cfg.scaling.transform == TransformKind.log ||
        cfg.scaling.transform == TransformKind.sqrt) then
    [Stage.scalingTransform] else []) ++
  (if cfg.scaling.enabled && !cfg.scaling.selectedColumns.isEmpty then
    [Stage.scalingScale] else []) ++
  (if cfg.model.enabled && !cfg.targetColumn.isEmpty then
    [Stage.baselineModel] else []) ++
  [Stage.nanCleanup] ++ [Stage.removeAllNull]

/-- Whether one stage is enabled by the configuration (the exact conditions
of the orchestrator's if-chain). -/
def stageEnabled (cfg : PipelineConfig) : Stage → Bool
  | .trim => cfg.cleaning.trimWhitespace
  | .normalizeColumns => cfg.cleaning.normalizeColumnNames
  | .caseStd => cfg.cleaning.standardizeCase
  | .exactDedupe => cfg.cleaning.removeDuplicates
  | .nearDedupe => cfg.cleaning.removeNearDuplicates
  | .dropHighMissing => cfg.cleaning.removeHighMissing
  | .missingHandling => cfg.cleaning.handleMissing
  | .dropLowVariance => cfg.cleaning.removeLowVariance
  | .outlierHandling => cfg.outlier.enabled
  | .timeFeatures => cfg.feature.timeFeatures && !cfg.feature.timeColumn.isEmpty
  | .rollingFeatures =>
      cfg.feature.rollingFeatures && !cfg.feature.rollingColumn.isEmpty
  | .lagFeatures => cfg.feature.lagFeatures && !cfg.feature.lagColumn.isEmpty
  | .polynomialFeatures =>
      cfg.feature.polynomialFeatures && !cfg.feature.polynomialColumns.isEmpty
  | .binningFeatures => cfg.feature.binning && !cfg.feature.binColumn.isEmpty
  | .geoEncoding =>
      cfg.geo.enabled && !cfg.geo.latColumn.isEmpty &&
        !cfg.geo.lonColumn.isEmpty
  | .categoricalEncoding =>
      cfg.encoding.enabled && !cfg.encoding.selectedColumns.isEmpty
  | .scalingTransform =>
      cfg.scaling.enabled && !cfg.scaling.selectedColumns.isEmpty &&
        (cfg.scaling.transform == TransformKind.log ||
          cfg.scaling.transform == TransformKind.sqrt)
  | .scalingScale => cfg.scaling.enabled && !cfg.scaling.selectedColumns.isEmpty
  | .baselineModel => cfg.model.enabled && !cfg.targetColumn.isEmpty
  | .nanCleanup => true
  | .removeAllNull => true

/-- The fixed stage order asserted by the claim (normalize before trim). -/
def claimStageOrder : List Stage :=
  [Stage.normalizeColumns, Stage.trim, Stage.caseStd, Stage.exactDedupe,
    Stage.nearDedupe, Stage.dropHighMissing, Stage.missingHandling,
    Stage.dropLowVariance, Stage.outlierHandling, Stage.timeFeatures,
    Stage.rollingFeatures, Stage.lagFeatures, Stage.polynomialFeatures,
    Stage.binningFeatures, Stage.geoEncoding, Stage.categoricalEncoding,
    Stage.scalingTransform, Stage.scalingScale, Stage.baselineModel,
    Stage.nanCleanup, Stage.removeAllNull]

/-- The fixed stage order the code actually follows (trim first). -/
def codeStageOrder : List Stage :=
  [Stage.trim, Stage.normalizeColumns, Stage.caseStd, Stage.exactDedupe,
    Stage.nearDedupe, Stage.dropHighMissing, Stage.missingHandling,
    Stage.dropLowVariance, Stage.outlierHandling, Stage.timeFeatures,
    Stage.rollingFeatures, Stage.lagFeatures, Stage.polynomialFeatures,
    Stage.binningFeatures, Stage.geoEncoding, Stage.categoricalEncoding,
    Stage.scalingTransform, Stage.scalingScale, Stage.baselineModel,
    Stage.nanCleanup, Stage.removeAllNull]

theorem filter_chain (p : Stage → Bool) (x : Stage) (l : List Stage) :
    List.filter p (x :: l) = (if p x then [x] else []) ++ List.filter p l := by
  by_cases h : p x <;> simp [List.filter_cons, h]

/-- A configuration enabling every stage. -/
def fullConfig : PipelineConfig :=
  { cleaning :=
      { removeDuplicates := true, removeNearDuplicates := true,
        handleMissing := true, trimWhitespace := true,
        standardizeCase := true, normalizeColumnNames := true,
        removeHighMissing := true, removeLowVariance := true },
    outlier := { enabled := true },
    feature :=
      { timeFeatures := true, timeColumn := "t",
        rollingFeatures := true, rollingColumn := "r",
        lagFeatures := true, lagColumn := "l",
        polynomialFeatures := true, polynomialColumns := ["p"],
        binning := true, binColumn := "b" },
    geo := { enabled := true, latColumn := "lat", lonColumn := "lon" },
    encoding := { enabled := true, selectedColumns := ["c"] },
    scaling :=
      { enabled := true, selectedColumns := ["s"],
        transform := TransformKind.log },
    model := { enabled := true },
    targetColumn := "y" }

set_option maxHeartbeats 1000000 in
/-- C1 counterexample. With every stage enabled the orchestrator runs trim
before column-name normalization, so its stage sequence differs from the
claim's fixed order, which puts normalize-columns first. -/
theorem pipeline_stage_order_counterexample :
    pipelineStages fullConfig ≠
      claimStageOrder.filter (stageEnabled fullConfig) := by
  decide

/-- C1 amended. For every configuration the orchestrator applies exactly
the enabled stages, in the fixed order trim → normalize-columns →
case-standardize → exact-dedupe → near-dedupe → drop-high-missing →
missing-handling → drop-low-variance → outliers → time/rolling/lag/
polynomial/binning features → geo → categorical encoding → scaling
transform → scaling → baseline model → NaN cleanup → all-null-column
removal; disabled stages are skipped entirely. -/
theorem pipeline_stage_order (cfg : PipelineConfig) :
    pipelineStages cfg = codeStageOrder.filter (stageEnabled cfg) := by
  simp only [codeStageOrder, filter_chain, List.filter_nil, List.append_nil,
    stageEnabled, if_true]
  unfold pipelineStages
  simp only [List.append_assoc]

/-- The error log entry pushed by the orchestrator's `catch`. -/
def pipelineErrorLog (msg : String) : LogEntry :=
  { operation := "Pipeline Error",
    details := "Error: " ++ msg,
    rowsAffected := 0,
    category := "cleaning" }

/-- What `handleApplyPipeline` leaves behind: the payload passed to
`onApplyPipeline`/`setPipelineLogs` (if any), the orchestrator's local
`logs` array, and the `isProcessing` flag after the `finally`. -/
structure OrchestratorOutcome where
  surfaced : Option (List Row × List LogEntry)
  localLogs : List LogEntry
  isProcessingAfter : Bool

/-- A pipeline stage, abstracted: it transforms the table and emits log
entries, or throws with a message. -/
def PipelineStageFn : Type :=
  List Row → Except String (List Row × List LogEntry)

/-- Control-flow model of `handleApplyPipeline`'s try/catch/finally: the
try block threads `(data, logs)` through the stages and surfaces the final
result only at its very end; the catch appends a dedicated error entry to
the local `logs` array but surfaces nothing; the finally always clears the
processing flag. -/
def runPipelineGo : List PipelineStageFn → List Row → List LogEntry →
    OrchestratorOutcome
  | [], d, logs =>
      { surfaced := some (d, logs), localLogs := logs,
        isProcessingAfter := false }
  | s :: rest, d, logs =>
      match s d with
      | .ok res => runPipelineGo rest res.1 (logs ++ res.2)
      | .error msg =>
          { surfaced := none,
            localLogs := logs ++ [pipelineErrorLog msg],
            isProcessingAfter := false }

def runPipeline (stages : List PipelineStageFn) (data : List Row) :
    OrchestratorOutcome :=
  runPipelineGo stages data []

/-- C2 counterexample. A single always-throwing stage: the exception is
swallowed and the dedicated error entry lands in the local log, but
nothing is surfaced — the orchestrator's catch never calls
`onApplyPipeline`, contradicting the claim that a partial result is
surfaced. -/
theorem orchestrator_error_counterexample :
    (runPipeline [fun _ => Except.error "boom"] []).surfaced = none ∧
      (runPipeline [fun _ => Except.error "boom"] []).localLogs =
        [pipelineErrorLog "boom"] ∧
      (runPipeline [fun _ => Except.error "boom"] []).isProcessingAfter =
        false :=
  ⟨rfl, rfl, rfl⟩

/-- C2 amended. The orchestrator never lets a stage exception escape: the
processing flag is always reset; when nothing is surfaced (a stage threw)
the local log ends with the dedicated error entry carrying the message;
and a surfaced result always carries the full accumulated log — but on a
throw no partial result is surfaced at all. -/
theorem orchestrator_error_behavior (stages : List PipelineStageFn)
    (data : List Row) (logs : List LogEntry) :
    ((runPipelineGo stages data logs).isProcessingAfter = false) ∧
      ((runPipelineGo stages data logs).surfaced = none →
        ∃ msg pre, (runPipelineGo stages data logs).localLogs =
          pre ++ [pipelineErrorLog msg]) ∧
      (∀ res, (runPipelineGo stages data logs).surfaced = some res →
        res.2 = (runPipelineGo stages data logs).localLogs) := by
  induction stages generalizing data logs with
  | nil =>
      refine ⟨rfl, ?_, ?_⟩
      · intro h
        exact absurd h (by simp [runPipelineGo])
      · intro res hres
        simp only [runPipelineGo, Option.some.injEq] at hres
        rw [← hres]
        rfl
  | cons s rest ih =>
      simp only [runPipelineGo]
      cases hs : s data with
      | ok res => exact ih res.1 (logs ++ res.2)
      | error msg =>
          refine ⟨rfl, ?_, ?_⟩
          · intro _
            exact ⟨msg, logs, rfl⟩
          · intro res hres
            simp at hres

/-- C2 witness: the amended behavior at the concrete always-throwing
stage — flag reset, and the local log ends with the error entry. -/
theorem orchestrator_error_behavior_witness :
    (runPipeline [fun _ => Except.error "boom"] []).isProcessingAfter =
        false ∧
      ∃ msg pre, (runPipeline [fun _ => Except.error "boom"] []).localLogs =
        pre ++ [pipelineErrorLog msg] := by
  obtain ⟨h1, h2, -⟩ :=
    orchestrator_error_behavior [fun _ => Except.error "boom"] [] []
  exact ⟨h1, h2 rfl⟩

/-! Mutation claims need object identity, which the pure embedding above
erases.  This small heap model makes it explicit: `objs` holds the row
objects, `arrs` the arrays of row references; reading, element assignment
and allocation mirror the corresponding JS operations, so "the operation
does not mutate its input" becomes "every pre-existing heap cell except
the freshly allocated output array is unchanged". -/

structure Heap where
  objs : List Row
  arrs : List (List ℕ)
deriving DecidableEq, Repr

/-- `h'` extends `h` without touching any pre-existing object, nor any
pre-existing array other than (possibly) the one at `exc`. -/
def HeapExtends (h h' : Heap) (exc : ℕ) : Prop :=
  (∀ j, j < h.objs.length → h'.objs.get? j = h.objs.get? j) ∧
    (∀ ai, ai < h.arrs.length → ai ≠ exc → h'.arrs.get? ai = h.arrs.get? ai) ∧
    h.objs.length ≤ h'.objs.length ∧ h.arrs.length ≤ h'.arrs.length

theorem HeapExtends.rfl (h : Heap) (exc : ℕ) : HeapExtends h h exc :=
  ⟨fun _ _ => Eq.refl _, fun _ _ _ => Eq.refl _, le_refl _, le_refl _⟩

theorem HeapExtends.trans {h1 h2 h3 : Heap} {exc : ℕ}
    (e12 : HeapExtends h1 h2 exc) (e23 : HeapExtends h2 h3 exc) :
    HeapExtends h1 h3 exc := by
  obtain ⟨o12, a12, lo12, la12⟩ := e12
  obtain ⟨o23, a23, lo23, la23⟩ := e23
  refine ⟨fun j hj => ?_, fun ai hai hne => ?_, le_trans lo12 lo23,
    le_trans la12 la23⟩
  · rw [o23 j (lt_of_lt_of_le hj lo12), o12 j hj]
  · rw [a23 ai (lt_of_lt_of_le hai la12) hne, a12 ai hai hne]

end DataForge
